import Mathlib

set_option maxHeartbeats 1000000

/-!
Shallow embedding of `openlane/common/metrics/util.py` (metric-name grammar
parser, roll-up aggregation, diff statistics and the tiered report renderer).
Python strings are modelled as `List Char`, Python dicts as insertion-ordered
association lists, metric values as `Int` (with Python truthiness `v ≠ 0`),
and code that can raise exceptions returns `Option`.
-/

/-- View of a Lean string literal as the `List Char` the embedding works on. -/
def str (s : String) : List Char := s.data

/-- Python `s.split("__")`: greedy left-to-right split on the two-character
separator, keeping empty parts, never returning an empty list. -/
def splitDU : List Char → List (List Char)
  | [] => [[]]
  | [c] => [[c]]
  | c₁ :: c₂ :: rest =>
    if c₁ = '_' ∧ c₂ = '_' then [] :: splitDU rest
    else
      match splitDU (c₂ :: rest) with
      | [] => [[c₁]]
      | p :: ps => (c₁ :: p) :: ps

/-- Python `"__".join(parts)`. -/
def joinDU : List (List Char) → List Char
  | [] => []
  | [p] => p
  | p :: ps => p ++ '_' :: '_' :: joinDU ps

/-- Python `":" in part`. -/
def hasColon (p : List Char) : Bool := p.contains ':'

/-- Python `part.split(":", maxsplit=1)` under the assumption that a colon is
present: the pair (text before the first colon, text after it). -/
def splitColon1 : List Char → List Char × List Char
  | [] => ([], [])
  | ':' :: rest => ([], rest)
  | c :: rest => ((splitColon1 rest).1.cons c, (splitColon1 rest).2)

/-- Python dict assignment `d[k] = v` on an insertion-ordered association
list: an existing key keeps its position and gets the new value, a fresh key
is appended at the end. -/
def dinsert {β : Type} : List (List Char × β) → List Char → β → List (List Char × β)
  | [], k, v => [(k, v)]
  | (k₀, v₀) :: d, k, v =>
    if k₀ = k then (k₀, v) :: d else (k₀, v₀) :: dinsert d k v

/-- Python dict lookup `d.get(k)` on an association list (first match). -/
def alistGet {β : Type} : List (List Char × β) → List Char → Option β
  | [], _ => none
  | (k₀, v₀) :: d, k => if k₀ = k then some v₀ else alistGet d k

/-- The `while ":" in mn_mut[-1]` loop of `parse_metric_modifiers`, run on the
reversed part list (so the Python `pop()` from the end is a head match).
`none` models the `IndexError` Python raises when the list runs empty. -/
def stripMods : List (List Char) → List (List Char × List Char) →
    Option (List (List Char) × List (List Char × List Char))
  | [], _ => none
  | p :: rest, acc =>
    if hasColon p then
      stripMods rest (dinsert acc (splitColon1 p).1 (splitColon1 p).2)
    else
      some ((p :: rest).reverse, acc)

/-- `parse_metric_modifiers` from `util.py`.  Splits the name on `"__"`, pops
trailing colon-containing parts as `key:value` modifiers, rejoins the rest as
the base, and returns the modifiers re-reversed into appearance order (the
comprehension `{k: modifiers[k] for k in reversed(modifiers)}`; since the keys
of the popped dict are unique this is exactly the reversed pair list).
`none` models the uncaught `IndexError` on names whose every part has a colon. -/
def parse_metric_modifiers (metric_name : List Char) :
    Option (List Char × List (List Char × List Char)) :=
  match stripMods (splitDU metric_name).reverse [] with
  | none => none
  | some (bparts, mods) => some (joinDU bparts, mods.reverse)

/-- The compiled pattern `modifier_rx = re.compile(r"([\w\-]+)\:([\w\-]+)")`
from `util.py` line 32, read as a full match of one segment: a nonempty run of
word characters or hyphens, a colon, and a nonempty run of word characters or
hyphens.  (`\w` on ASCII input is letters, digits and underscore.) -/
def isWordOrHyphen (c : Char) : Bool := c.isAlphanum || c = '_' || c = '-'

/-- Whether a whole segment matches `modifier_rx`. -/
def matchesModifier (p : List Char) : Bool :=
  let k := (splitColon1 p).1
  let v := (splitColon1 p).2
  hasColon p && decide (k ≠ []) && decide (v ≠ []) &&
    k.all isWordOrHyphen && v.all isWordOrHyphen

/-- Python truthiness fallback `x or start` where `x` is an optional metric
value: `None` and the falsy value `0` both fall back to `start`. -/
def pyOrInt (o : Option Int) (d : Int) : Int :=
  match o with
  | none => d
  | some v => if v = 0 then d else v

/-- An aggregator: the tuple of initial accumulator and reducer.  The reducer
is applied to the two-element list `[current, value]` as in the source. -/
structure Aggregator where
  start : Int
  fn : List Int → Int

/-- A registry entry: either a bare aggregator tuple, or a `Metric` object
carrying an optional `dont_aggregate` list and an optional aggregator. -/
inductive RegistryEntry where
  | tup : Aggregator → RegistryEntry
  | metric : Option (List (List Char)) → Option Aggregator → RegistryEntry

/-- `entry.dont_aggregate or []` (only consulted for `Metric` entries). -/
def RegistryEntry.dontAggregate : RegistryEntry → List (List Char)
  | .tup _ => []
  | .metric d _ => d.getD []

/-- The aggregator finally extracted from a registry entry (`entry` after the
`isinstance(entry, Metric)` unwrapping; `none` means `entry is None`). -/
def RegistryEntry.agg : RegistryEntry → Option Aggregator
  | .tup a => some a
  | .metric _ a => a

/-- The registry `aggregator_by_metric`, modelled by its read-only lookup. -/
def Registry : Type := List Char → Option RegistryEntry

/-- One modifier segment `f"__{key}:{value}"` as appended to
`metric_name_so_far`. -/
def segStr (kv : List Char × List Char) : List Char :=
  '_' :: '_' :: (kv.1 ++ ':' :: kv.2)

/-- The segment's own text `key:value` (the part it came from). -/
def segCore (kv : List Char × List Char) : List Char := kv.1 ++ ':' :: kv.2

/-- The inner `for modifier in modifier_names` loop of `aggregate_metrics`:
fold the entry's value into the accumulator stored at each successive prefix
name, growing `metric_name_so_far` by one segment per step. -/
def foldModsAux (start : Int) (fn : List Int → Int) (value : Int) :
    List (List Char × Int) → List Char → List (List Char × List Char) →
    List (List Char × Int)
  | agg, _, [] => agg
  | agg, soFar, kv :: rest =>
    let current := pyOrInt (alistGet agg soFar) start
    foldModsAux start fn value (dinsert agg soFar (fn [current, value]))
      (soFar ++ segStr kv) rest

/-- The names the inner loop writes, in order (`metric_name_so_far` at each
iteration). -/
def chainKeys : List Char → List (List Char × List Char) → List (List Char)
  | _, [] => []
  | soFar, kv :: rest => soFar :: chainKeys (soFar ++ segStr kv) rest

/-- One iteration of the main `for name, value in input.items()` loop of
`aggregate_metrics`, total version (used when the name parses). -/
def aggStepT (rules : Registry) (agg : List (List Char × Int))
    (nv : List Char × Int) : List (List Char × Int) :=
  match parse_metric_modifiers nv.1 with
  | none => agg
  | some (base, mods) =>
    if mods.length < 1 then agg
    else
      match rules base with
      | none => agg
      | some e =>
        match e.agg with
        | none => agg
        | some a =>
          if (mods.map Prod.fst).any (fun k => e.dontAggregate.contains k) then agg
          else foldModsAux a.start a.fn nv.2 agg base mods

/-- The main loop of `aggregate_metrics`, building the `aggregated` dict;
`none` models the exception propagating out of `parse_metric_modifiers`. -/
def aggLoop (rules : Registry) : List (List Char × Int) →
    List (List Char × Int) → Option (List (List Char × Int))
  | agg, [] => some agg
  | agg, nv :: rest =>
    match parse_metric_modifiers nv.1 with
    | none => none
    | some _ => aggLoop rules (aggStepT rules agg nv) rest

/-- `final_values = dict(input); final_values.update(aggregated)`. -/
def pyUpdate (d : List (List Char × Int)) (agg : List (List Char × Int)) :
    List (List Char × Int) :=
  agg.foldl (fun acc kv => dinsert acc kv.1 kv.2) d

/-- `aggregate_metrics` from `util.py` (the registry is passed explicitly;
the `Metric.by_name` default lives outside this file's source). -/
def aggregate_metrics (input : List (List Char × Int)) (rules : Registry) :
    Option (List (List Char × Int)) :=
  (aggLoop rules [] input).map (fun aggregated => pyUpdate input aggregated)

/-- The names an input entry causes the aggregation loop to write to
(empty when any of the skip guards fires). -/
def entryWrites (rules : Registry) (name : List Char) : List (List Char) :=
  match parse_metric_modifiers name with
  | none => []
  | some (base, mods) =>
    if mods.length < 1 then []
    else
      match rules base with
      | none => []
      | some e =>
        match e.agg with
        | none => []
        | some _ =>
          if (mods.map Prod.fst).any (fun k => e.dontAggregate.contains k) then []
          else chainKeys base mods

/-- The verbosity of the table (`IntEnum TableVerbosity` in `util.py`). -/
inductive TableVerbosity where
  | NONE | CRITICAL | WORSE | CHANGED | ALL
deriving DecidableEq

/-- The integer value of a `TableVerbosity`, for the `>=` comparisons. -/
def TableVerbosity.toNat : TableVerbosity → Nat
  | .NONE => 0
  | .CRITICAL => 1
  | .WORSE => 2
  | .CHANGED => 3
  | .ALL => 4

/-- Modelled from the spec: a `MetricComparisonResult` (class defined in
`metric.py`, outside this file) describes for one metric name the formatted
before/after/delta strings produced by `format_values()`, whether the value
changed (`is_changed()`), whether the change is an improvement (`better`:
true/false/undetermined) and whether the metric is flagged `critical`. -/
structure MetricComparisonResult where
  metric_name : List Char
  before_v : List Char
  after_v : List Char
  delta_v : List Char
  is_changed : Bool
  better : Option Bool
  critical : Bool
deriving DecidableEq

/-- `row.format_values()` as consumed by the renderer: the three precomputed
strings. -/
def MetricComparisonResult.format_values (r : MetricComparisonResult) :
    List Char × List Char × List Char :=
  (r.before_v, r.after_v, r.delta_v)

/-- `_key_from_metrics` from `util.py` (the `none` branch is unreachable when
the caller has checked that the name parses; Python would raise there). -/
def key_from_metrics (fields : List (List Char)) (metric : List Char) :
    List (List Char) :=
  match parse_metric_modifiers metric with
  | none => []
  | some (base, modifiers) =>
    fields.map (fun field =>
      if field = [] then base else (alistGet modifiers field).getD [])

/-- Python string `<` (lexicographic by code point). -/
def strLt : List Char → List Char → Bool
  | [], [] => false
  | [], _ :: _ => true
  | _ :: _, [] => false
  | a :: as', b :: bs => if a = b then strLt as' bs else decide (a.toNat < b.toNat)

/-- Python list-of-strings `<` (lexicographic). -/
def keyLt : List (List Char) → List (List Char) → Bool
  | [], [] => false
  | [], _ :: _ => true
  | _ :: _, [] => false
  | a :: as', b :: bs => if a = b then keyLt as' bs else strLt a b

/-- Stable insertion used to model Python's stable `sorted`. -/
def insBy {α : Type} (lt : α → α → Bool) (x : α) : List α → List α
  | [] => [x]
  | y :: ys => if lt x y then x :: y :: ys else y :: insBy lt x ys

/-- Stable ascending sort (Python `sorted(l, key=...)`). -/
def pySorted {α : Type} (lt : α → α → Bool) (l : List α) : List α :=
  l.foldl (fun acc x => insBy lt x acc) []

/-- The `differences` list after the optional sort in `render_md`.  Python's
`if fields := sort_by:` treats both `None` and an empty field list as "do not
sort"; `none` as a result models the exception `_key_from_metrics` raises via
the parser on an unparseable metric name. -/
def sortedDiffs (diffs : List MetricComparisonResult)
    (sort_by : Option (List (List Char))) :
    Option (List MetricComparisonResult) :=
  match sort_by with
  | none => some diffs
  | some [] => some diffs
  | some fields =>
    if diffs.all (fun r => (parse_metric_modifiers r.metric_name).isSome) then
      some (pySorted
        (fun x y => keyLt (key_from_metrics fields x.metric_name)
          (key_from_metrics fields y.metric_name)) diffs)
    else none

/-- The four partition buckets of `render_md`, in priority order. -/
def bucketCritical (l : List MetricComparisonResult) : List MetricComparisonResult :=
  l.filter (fun r => r.critical)

def bucketWorse (l : List MetricComparisonResult) : List MetricComparisonResult :=
  l.filter (fun r => !r.critical && r.better == some false)

def bucketChanged (l : List MetricComparisonResult) : List MetricComparisonResult :=
  l.filter (fun r => !r.critical && !(r.better == some false) && r.is_changed)

def bucketRemaining (l : List MetricComparisonResult) : List MetricComparisonResult :=
  l.filter (fun r => !r.critical && !(r.better == some false) && !r.is_changed)

/-- `listed_differences`: the buckets concatenated according to verbosity. -/
def listedDifferences (l : List MetricComparisonResult) (tv : TableVerbosity) :
    List MetricComparisonResult :=
  (if TableVerbosity.CRITICAL.toNat ≤ tv.toNat then bucketCritical l else []) ++
  (if TableVerbosity.WORSE.toNat ≤ tv.toNat then bucketWorse l else []) ++
  (if TableVerbosity.CHANGED.toNat ≤ tv.toNat then bucketChanged l else []) ++
  (if TableVerbosity.ALL.toNat ≤ tv.toNat then bucketRemaining l else [])

/-- The rows `render_md` renders for a given result list, sort order and
verbosity (`none` when sorting raises). -/
def renderedRows (diffs : List MetricComparisonResult)
    (sort_by : Option (List (List Char))) (tv : TableVerbosity) :
    Option (List MetricComparisonResult) :=
  (sortedDiffs diffs sort_by).map (fun l => listedDifferences l tv)

/-- Python `f"{s:<w}"`: left-justify to minimum width `w`. -/
def padTo (s : List Char) (w : Nat) : List Char :=
  s ++ List.replicate (w - s.length) ' '

/-- The trailing glyph appended to the delta cell of a row. -/
def emojiOf (r : MetricComparisonResult) : List Char :=
  let e : List Char :=
    match r.better with
    | none => []
    | some true => str " ⭕"
    | some false => str " ❗"
  if r.critical && r.is_changed then str " ‼️" else e

/-- One table row
`f"| {name:<70} | {before:<10} | {after:<10} | {f'{delta}{emoji}':<20} |\n"`. -/
def rowLine (r : MetricComparisonResult) : List Char :=
  let fv := r.format_values
  str "| " ++ padTo r.metric_name 70 ++ str " | " ++ padTo fv.1 10 ++
  str " | " ++ padTo fv.2.1 10 ++ str " | " ++
  padTo (fv.2.2 ++ emojiOf r) 20 ++ str " |\n"

/-- The table header after `textwrap.dedent` strips the common 16-space
margin of the triple-quoted f-string. -/
def headerStr : List Char :=
  '\n' :: (str "| " ++ padTo (str "Metric") 70 ++ str " | " ++
    padTo (str "Before") 10 ++ str " | " ++ padTo (str "After") 10 ++
    str " | " ++ padTo (str "Delta") 20 ++ str " |\n") ++
  (str "| " ++ padTo (str "-") 70 ++ str " | " ++ padTo (str "-") 10 ++
    str " | " ++ padTo (str "-") 10 ++ str " | " ++ padTo (str "-") 20 ++
    str " |\n")

/-- `MetricDiff.render_md` from `util.py`; `none` models the exception the
sorting key can raise, and the returned text is `""` (the empty char list)
when nothing is selected. -/
def render_md (diffs : List MetricComparisonResult)
    (sort_by : Option (List (List Char))) (tv : TableVerbosity) :
    Option (List Char) :=
  if tv = TableVerbosity.NONE then some []
  else
    match sortedDiffs diffs sort_by with
    | none => none
    | some differences =>
      let listed := listedDifferences differences tv
      some (if 0 < listed.length then
        listed.foldl (fun t r => t ++ rowLine r) headerStr
      else [])

/-- `MetricDiff.MetricStatistics`. -/
structure MetricStatistics where
  better : Nat := 0
  worse : Nat := 0
  critical : Nat := 0
  unchanged : Nat := 0
deriving DecidableEq

/-- The body of the `for row in self.differences` loop of `MetricDiff.stats`. -/
def statsStep (s : MetricStatistics) (r : MetricComparisonResult) :
    MetricStatistics :=
  let s :=
    if !r.is_changed then { s with unchanged := s.unchanged + 1 }
    else
      match r.better with
      | none => s
      | some true => { s with better := s.better + 1 }
      | some false => { s with worse := s.worse + 1 }
  if r.critical then { s with critical := s.critical + 1 } else s

/-- `MetricDiff.stats` from `util.py`. -/
def stats (diffs : List MetricComparisonResult) : MetricStatistics :=
  diffs.foldl statsStep {}


/-- Whether a character list contains the `"__"` separator. -/
def hasDU : List Char → Bool
  | [] => false
  | [_] => false
  | c₁ :: c₂ :: rest => (c₁ = '_' && c₂ = '_') || hasDU (c₂ :: rest)

/-- Whether a character list ends in `'_'`. -/
def endsU : List Char → Bool
  | [] => false
  | [c] => c = '_'
  | _ :: c :: rest => endsU (c :: rest)

/-- One pop step of the modifier dict. -/
def insStep (d : List (List Char × List Char)) (q : List Char) :
    List (List Char × List Char) :=
  dinsert d (splitColon1 q).1 (splitColon1 q).2


/-- Key-uniqueness of an association list (every Python dict satisfies it). -/
def keysNodup {β : Type} (d : List (List Char × β)) : Prop :=
  (d.map Prod.fst).Nodup

/-- Total character length contributed by modifier segments when appended to
a name (each segment adds `"__" ++ key ++ ":" ++ value`). -/
def segsLen (m : List (List Char × List Char)) : Nat :=
  (m.map (fun kv => kv.1.length + kv.2.length + 3)).sum

/-- A composite name built as Python does: the base followed by
`f"__{key}:{value}"` for each modifier segment in order. -/
def mkName (base : List Char) (segs : List (List Char × List Char)) :
    List Char :=
  segs.foldl (fun n kv => n ++ segStr kv) base

/-- The effect of processing one input entry on the aggregate stored under a
fixed name `k`: identity when any skip guard fires or `k` is not written,
otherwise one reducer application (this is what `aggStepT` does to the value
at `k`). -/
def entryEffect (rules : Registry) (nv : List Char × Int) (k : List Char)
    (a : Option Int) : Option Int :=
  match parse_metric_modifiers nv.1 with
  | none => a
  | some (base, mods) =>
    if mods.length < 1 then a
    else
      match rules base with
      | none => a
      | some e =>
        match e.agg with
        | none => a
        | some ag =>
          if (mods.map Prod.fst).any (fun key => e.dontAggregate.contains key)
          then a
          else if k ∈ chainKeys base mods then
            some (ag.fn [pyOrInt a ag.start, nv.2])
          else a

/-! Concrete registries used by the counterexamples and witnesses. -/

/-- Registry mapping base `"m"` to a summing aggregator with initial
accumulator 0. -/
def sumRules : Registry := fun b =>
  if b = str "m" then
    some (.tup ⟨0, fun l => l.headD 0 + (l.drop 1).headD 0⟩)
  else none

/-- Registry mapping base `"m"` to a subtracting aggregator with initial
accumulator 3 (`fn [c, v] = c - v`). -/
def subRules : Registry := fun b =>
  if b = str "m" then
    some (.tup ⟨3, fun l => l.headD 0 - (l.drop 1).headD 0⟩)
  else none

/-- Registry mapping base `"m"` to a multiplying aggregator with initial
accumulator 1. -/
def mulRules : Registry := fun b =>
  if b = str "m" then
    some (.tup ⟨1, fun l => l.headD 1 * (l.drop 1).headD 1⟩)
  else none

/-- Registry mapping base `"m"` to an always-positive associative and
commutative aggregator (`fn [x, y] = |x| + |y| + 1`), used to witness the
order-independence theorem. -/
def absRules : Registry := fun b =>
  if b = str "m" then
    some (.tup ⟨1, fun l =>
      ((l.headD 0).natAbs : Int) + (((l.drop 1).headD 0).natAbs : Int) + 1⟩)
  else none

/-- C1 counterexample: `parse_metric_modifiers` does not return a result for
every input string — on `"a:b"`, whose only `"__"`-separated part contains a
colon, the loop empties the part list and the code raises `IndexError`
(modelled as `none`), so parsing is not failure-free as claimed. -/
theorem C1_counterexample : parse_metric_modifiers (str "a:b") = none := by
  decide

/-- C2 counterexample: with the rule `(start := 3, fn [c, v] = c - v)` and
input `{"m__k:a": 3, "m__k:b": 1}`, the first fold stores `3 - 3 = 0` under
`"m"`; the claim says the second fold applies the reducer to the stored
accumulator `0`, giving `fn [0, 1] = -1`, but the code's
`aggregated.get(...) or start` discards the falsy stored `0` and re-seeds
with 3, producing `3 - 1 = 2`. -/
theorem C2_counterexample :
    (aggregate_metrics [(str "m__k:a", 3), (str "m__k:b", 1)] subRules).map
        (fun d => alistGet d (str "m")) = some (some 2) ∧
      (3 : Int) - 3 = 0 ∧ (0 : Int) - 1 = -1 ∧ (2 : Int) ≠ -1 :=
  ⟨by decide, by decide, by decide, by decide⟩

/-- C3 counterexample: multiplication (start 1) is associative and
commutative, yet permuting the input `{"m__k:a": 0, "m__k:b": 5}` changes the
aggregate stored under `"m"` (5 versus 0), because the falsy intermediate
accumulator 0 is re-seeded by `or start` in one order but consumed in the
other.  This refutes order independence as claimed. -/
theorem C3_counterexample :
    [(str "m__k:a", 0), (str "m__k:b", 5)].Perm
        [(str "m__k:b", 5), (str "m__k:a", 0)] ∧
      (∀ a b : Int, a * b = b * a) ∧
      (∀ a b c : Int, a * b * c = a * (b * c)) ∧
      (aggregate_metrics [(str "m__k:a", 0), (str "m__k:b", 5)] mulRules).map
          (fun d => alistGet d (str "m")) = some (some 5) ∧
      (aggregate_metrics [(str "m__k:b", 5), (str "m__k:a", 0)] mulRules).map
          (fun d => alistGet d (str "m")) = some (some 0) ∧
      (5 : Int) ≠ 0 :=
  ⟨by decide, Int.mul_comm, Int.mul_assoc, by decide, by decide, by decide⟩

/-- C4 counterexample: the trailing part `":v"` of `"m__:v"` does not match
the `modifier_rx` grammar (its key is empty), yet the code still strips it as
a modifier — the loop tests colon containment, not the grammar — so the scan
does not stop at the first non-grammar part as claimed. -/
theorem C4_counterexample :
    matchesModifier (str ":v") = false ∧
      parse_metric_modifiers (str "m__:v") =
        some (str "m", [(str "", str "v")]) :=
  ⟨by decide, by decide⟩

/-- C5 counterexample: the segment `k:a__b` is well-formed for the
`modifier_rx` grammar (underscores are word characters), but joining it onto
base `"b"` and re-parsing does not round-trip: the embedded `"__"` inside the
value splits the segment, no trailing part has a colon, and the whole string
comes back as the base with no modifiers. -/
theorem C5_counterexample :
    matchesModifier (str "k:a__b") = true ∧
      str "b" ++ segStr (str "k", str "a__b") = str "b__k:a__b" ∧
      parse_metric_modifiers (str "b__k:a__b") = some (str "b__k:a__b", []) ∧
      str "b__k:a__b" ≠ str "b" :=
  ⟨by decide, by decide, by decide, by decide⟩

/-- C6 counterexample: processing the single entry `"m__k:b__j:c__k:a"`
(duplicate modifier key `k`) writes an aggregate under `"m__j:c"`, which is
not a prefix of the entry's name — the parsed modifier chain, reordered by
the dict-overwrite semantics, does not follow the original name's spelling. -/
theorem C6_counterexample :
    (aggregate_metrics [(str "m__k:b__j:c__k:a", 1)] sumRules).map
        (fun d => alistGet d (str "m__j:c")) = some (some 1) ∧
      (str "m__j:c").isPrefixOf (str "m__k:b__j:c__k:a") = false :=
  ⟨by decide, by decide⟩

/-- C9 counterexample: a result with `is_changed() = False`, `critical =
False` but a determinate `better = False` flag does get a glyph — the code
appends the "worsened" glyph whenever `better is not None`, regardless of
`is_changed()` — so unchanged, non-critical rows are not glyph-free in
general. -/
theorem C9_counterexample :
    (let r : MetricComparisonResult :=
      { metric_name := str "m", before_v := str "1", after_v := str "1",
        delta_v := str "0", is_changed := false, better := some false,
        critical := false }
     r.is_changed = false ∧ r.critical = false ∧ emojiOf r = str " ❗" ∧
       (render_md [r] none TableVerbosity.ALL).map
         (fun t => t.contains '❗') = some true) :=
  ⟨by decide, by decide, by decide, by decide⟩

set_option linter.unreachableTactic false
set_option linter.unusedTactic false

theorem statsStep_sum (s : MetricStatistics) (r : MetricComparisonResult) :
    (statsStep s r).better + (statsStep s r).worse + (statsStep s r).unchanged =
      s.better + s.worse + s.unchanged +
        (if r.is_changed && r.better == none then 0 else 1) := by
  unfold statsStep
  cases hc : r.is_changed <;> rcases hb : r.better with _ | b <;>
    cases hcr : r.critical <;> (try cases b) <;> simp <;> omega

theorem statsStep_critical (s : MetricStatistics) (r : MetricComparisonResult) :
    (statsStep s r).critical = s.critical + (if r.critical then 1 else 0) := by
  unfold statsStep
  cases hc : r.is_changed <;> rcases hb : r.better with _ | b <;>
    cases hcr : r.critical <;> (try cases b) <;> simp <;> omega

theorem stats_go_sum (diffs : List MetricComparisonResult) :
    ∀ s : MetricStatistics,
      (diffs.foldl statsStep s).better + (diffs.foldl statsStep s).worse +
          (diffs.foldl statsStep s).unchanged =
        s.better + s.worse + s.unchanged +
          diffs.countP (fun r => !(r.is_changed && r.better == none)) := by
  induction diffs with
  | nil => simp
  | cons r rest ih =>
    intro s
    simp only [List.foldl_cons, List.countP_cons]
    rw [ih (statsStep s r)]
    have h := statsStep_sum s r
    by_cases hr : (r.is_changed && r.better == none) = true <;>
      simp [hr] at h ⊢ <;> omega

theorem stats_go_critical (diffs : List MetricComparisonResult) :
    ∀ s : MetricStatistics,
      (diffs.foldl statsStep s).critical =
        s.critical + diffs.countP (fun r => r.critical) := by
  induction diffs with
  | nil => simp
  | cons r rest ih =>
    intro s
    simp only [List.foldl_cons, List.countP_cons]
    rw [ih (statsStep s r)]
    have h := statsStep_critical s r
    by_cases hr : r.critical = true <;> simp [hr] at h ⊢ <;> omega

theorem countP_not_add {α : Type} (p : α → Bool) (l : List α) :
    l.countP (fun a => !(p a)) + l.countP p = l.length := by
  induction l with
  | nil => simp
  | cons a l ih =>
    simp only [List.countP_cons]
    by_cases hp : p a = true <;> simp [hp] <;> omega

/-- C8: when every comparison result is unchanged or has a determinate
`better` flag, the `better`, `worse` and `unchanged` counters of
`MetricDiff.stats` partition the result list; and for every collection
whatsoever, with no hypothesis at all, the `critical` counter never exceeds
the number of results. -/
theorem C8_stats (diffs : List MetricComparisonResult) :
    ((∀ r ∈ diffs, r.is_changed = false ∨ r.better ≠ none) →
      (stats diffs).better + (stats diffs).worse + (stats diffs).unchanged =
        diffs.length) ∧
      (stats diffs).critical ≤ diffs.length := by
  constructor
  · intro h
    have hsum := stats_go_sum diffs {}
    have hcount : diffs.countP (fun r => !(r.is_changed && r.better == none)) =
        diffs.length := by
      rw [List.countP_eq_length]
      intro r hr
      rcases h r hr with h1 | h1
      · simp [h1]
      · rcases hb : r.better with _ | b
        · exact absurd hb h1
        · simp [hb]
    rw [hcount] at hsum
    simpa [stats] using hsum
  · have hcrit := stats_go_critical diffs {}
    have : diffs.countP (fun r => r.critical) ≤ diffs.length :=
      List.countP_le_length _
    simp only [stats, hcrit]
    simpa using this

/-- C8 witness: the partition equality on a concrete determinate two-row
list, and the critical bound on a three-row list that also contains a
changed result with an undetermined `better` flag. -/
theorem C8_stats_witness :
    (let r1 : MetricComparisonResult :=
      { metric_name := str "m", before_v := str "1", after_v := str "1",
        delta_v := str "0", is_changed := false, better := none,
        critical := false }
     let r2 : MetricComparisonResult :=
      { metric_name := str "n", before_v := str "1", after_v := str "2",
        delta_v := str "+1", is_changed := true, better := some true,
        critical := true }
     let r3 : MetricComparisonResult :=
      { metric_name := str "p", before_v := str "1", after_v := str "3",
        delta_v := str "+2", is_changed := true, better := none,
        critical := true }
     ((stats [r1, r2]).better + (stats [r1, r2]).worse +
          (stats [r1, r2]).unchanged = 2) ∧
       (stats [r1, r2, r3]).critical ≤ 3) := by
  intro r1 r2 r3
  exact ⟨(C8_stats [r1, r2]).1 (by decide), (C8_stats [r1, r2, r3]).2⟩

/-- C10: with no hypothesis on the `better` flags, the three change counters
of `MetricDiff.stats` fall short of the result count by exactly the number of
changed results with undetermined `better`, and the `critical` counter counts
exactly the results flagged critical (so an undetermined changed result is
counted only there, if at all). -/
theorem C10_stats_shortfall (diffs : List MetricComparisonResult) :
    (stats diffs).better + (stats diffs).worse + (stats diffs).unchanged +
        diffs.countP (fun r => r.is_changed && r.better == none) =
        diffs.length ∧
      (stats diffs).critical = diffs.countP (fun r => r.critical) := by
  constructor
  · have hsum := stats_go_sum diffs {}
    have hsplit := countP_not_add
      (fun r => r.is_changed && r.better == none) diffs
    have h1 : ({} : MetricStatistics).better = 0 := rfl
    have h2 : ({} : MetricStatistics).worse = 0 := rfl
    have h3 : ({} : MetricStatistics).unchanged = 0 := rfl
    simp only [stats]
    omega
  · have hcrit := stats_go_critical diffs {}
    simpa [stats] using hcrit

/-- C9 amended: in the table produced by `MetricDiff.render_md`, a result
whose `is_changed()` is false, whose `critical` flag is false and whose
`better` flag is undetermined (`None`) gets no glyph appended to its delta
cell (a determinate `better` flag, by contrast, always yields its glyph). -/
theorem C9_amended (r : MetricComparisonResult) (h1 : r.is_changed = false)
    (h2 : r.critical = false) (h3 : r.better = none) : emojiOf r = [] := by
  simp [emojiOf, h1, h2, h3]

/-- C9 amended, witnessed at a concrete unchanged, non-critical,
undetermined result. -/
theorem C9_amended_witness :
    (let r : MetricComparisonResult :=
      { metric_name := str "m", before_v := str "1", after_v := str "1",
        delta_v := str "0", is_changed := false, better := none,
        critical := false }
     emojiOf r = []) :=
  C9_amended _ (by decide) (by decide) (by decide)

/-- C7: for every result set and sort order, `MetricDiff.render_md` renders
at `NONE` the empty string; the row set rendered at `CRITICAL` is included in
the one at `WORSE`, which is included in the one at `CHANGED`; and whenever
the configured verbosity selects no row the output is the empty string (no
header). -/
theorem C7_verbosity (diffs : List MetricComparisonResult)
    (sort_by : Option (List (List Char))) :
    render_md diffs sort_by TableVerbosity.NONE = some [] ∧
      (∀ cr wo, renderedRows diffs sort_by TableVerbosity.CRITICAL = some cr →
        renderedRows diffs sort_by TableVerbosity.WORSE = some wo → cr ⊆ wo) ∧
      (∀ wo ch, renderedRows diffs sort_by TableVerbosity.WORSE = some wo →
        renderedRows diffs sort_by TableVerbosity.CHANGED = some ch → wo ⊆ ch) ∧
      (∀ tv, renderedRows diffs sort_by tv = some [] →
        render_md diffs sort_by tv = some []) := by
  refine ⟨rfl, ?_, ?_, ?_⟩
  · intro cr wo hcr hwo
    unfold renderedRows at hcr hwo
    cases hs : sortedDiffs diffs sort_by with
    | none => rw [hs] at hcr; exact Option.noConfusion hcr
    | some l =>
      rw [hs] at hcr hwo
      have hcr' : listedDifferences l TableVerbosity.CRITICAL = cr :=
        Option.some.inj hcr
      have hwo' : listedDifferences l TableVerbosity.WORSE = wo :=
        Option.some.inj hwo
      subst hcr'; subst hwo'
      intro x hx
      simp only [listedDifferences, TableVerbosity.toNat] at hx ⊢
      simp at hx ⊢
      tauto
  · intro wo ch hwo hch
    unfold renderedRows at hwo hch
    cases hs : sortedDiffs diffs sort_by with
    | none => rw [hs] at hwo; exact Option.noConfusion hwo
    | some l =>
      rw [hs] at hwo hch
      have hwo' : listedDifferences l TableVerbosity.WORSE = wo :=
        Option.some.inj hwo
      have hch' : listedDifferences l TableVerbosity.CHANGED = ch :=
        Option.some.inj hch
      subst hwo'; subst hch'
      intro x hx
      simp only [listedDifferences, TableVerbosity.toNat] at hx ⊢
      simp at hx ⊢
      tauto
  · intro tv h
    unfold renderedRows at h
    unfold render_md
    by_cases hn : tv = TableVerbosity.NONE
    · simp [hn]
    · simp only [if_neg hn]
      cases hs : sortedDiffs diffs sort_by with
      | none => rw [hs] at h; exact Option.noConfusion h
      | some l =>
        rw [hs] at h
        have h' : listedDifferences l tv = [] := Option.some.inj h
        simp [h']

/-- C7 witnessed at concrete inputs: a single critical row propagates from
the `CRITICAL` tier to the `WORSE` and `CHANGED` tiers, and an empty
selection renders as the empty string. -/
theorem C7_verbosity_witness :
    (let r : MetricComparisonResult :=
      { metric_name := str "m", before_v := str "1", after_v := str "2",
        delta_v := str "+1", is_changed := true, better := some false,
        critical := true }
     render_md [r] none TableVerbosity.NONE = some [] ∧
       ([r] : List MetricComparisonResult) ⊆ [r] ∧
       ([r] : List MetricComparisonResult) ⊆ [r] ∧
       render_md [] none TableVerbosity.ALL = some []) := by
  intro r
  refine ⟨(C7_verbosity [r] none).1, ?_, ?_, ?_⟩
  · exact (C7_verbosity [r] none).2.1 [r] [r] (by decide) (by decide)
  · exact (C7_verbosity [r] none).2.2.1 [r] [r] (by decide) (by decide)
  · exact (C7_verbosity [] none).2.2.2 TableVerbosity.ALL (by decide)


theorem splitDU_ne_nil (l : List Char) : splitDU l ≠ [] := by
  cases l with
  | nil => simp [splitDU]
  | cons c rest =>
    cases rest with
    | nil => simp [splitDU]
    | cons c₂ r =>
      simp only [splitDU]
      split
      · simp
      · split <;> simp

theorem splitDU_sep (rest : List Char) :
    splitDU ('_' :: '_' :: rest) = [] :: splitDU rest := by
  simp [splitDU]

theorem joinDU_cons (p : List Char) (ps : List (List Char)) (h : ps ≠ []) :
    joinDU (p :: ps) = p ++ '_' :: '_' :: joinDU ps := by
  cases ps with
  | nil => exact absurd rfl h
  | cons q qs => rfl

theorem joinDU_splitDU (l : List Char) : joinDU (splitDU l) = l := by
  induction l using splitDU.induct
  case case1 => rfl
  case case2 c => rfl
  case case3 c₁ c₂ rest h ih =>
    obtain ⟨h1, h2⟩ := h
    subst h1; subst h2
    rw [splitDU_sep, joinDU_cons _ _ (splitDU_ne_nil rest), ih]
    rfl
  case case4 c₁ c₂ rest h hnil ih =>
    exact absurd hnil (splitDU_ne_nil _)
  case case5 c₁ c₂ rest h p ps hsp ih =>
    have hs : splitDU (c₁ :: c₂ :: rest) = (c₁ :: p) :: ps := by
      simp [splitDU, h, hsp]
    rw [hs]
    rw [hsp] at ih
    cases ps with
    | nil =>
      simp only [joinDU] at ih ⊢
      simp [ih]
    | cons q qs =>
      rw [joinDU_cons _ _ (by simp)] at ih ⊢
      rw [List.cons_append]
      rw [ih]

theorem splitDU_cons_of (c d : Char) (zs p : List Char) (ps : List (List Char))
    (h : ¬(c = '_' ∧ d = '_')) (hsp : splitDU (d :: zs) = p :: ps) :
    splitDU (c :: d :: zs) = (c :: p) :: ps := by
  simp [splitDU, h, hsp]

theorem splitDU_head (c : Char) (rest : List Char) :
    (c = '_' ∧ (∃ r', rest = '_' :: r') ∧
      (∃ ps, splitDU (c :: rest) = [] :: ps)) ∨
    (∃ t ps, splitDU (c :: rest) = (c :: t) :: ps) := by
  cases rest with
  | nil => right; exact ⟨[], [], rfl⟩
  | cons c₂ r =>
    by_cases h : c = '_' ∧ c₂ = '_'
    · left
      obtain ⟨h1, h2⟩ := h
      subst h1; subst h2
      exact ⟨rfl, ⟨r, rfl⟩, ⟨splitDU r, splitDU_sep r⟩⟩
    · right
      rcases hs : splitDU (c₂ :: r) with _ | ⟨p, ps⟩
      · exact absurd hs (splitDU_ne_nil _)
      · exact ⟨p, ps, splitDU_cons_of c c₂ r p ps h hs⟩

theorem endsU_cons₂ (a b : Char) (z : List Char) :
    endsU (a :: b :: z) = endsU (b :: z) := rfl

theorem endsU_cons_of_ne (b : Char) (z : List Char) (h : z ≠ []) :
    endsU (b :: z) = endsU z := by
  cases z with
  | nil => exact absurd rfl h
  | cons c zs => rfl

theorem splitDU_no_sep (l : List Char) : ∀ p ∈ splitDU l, hasDU p = false := by
  induction l using splitDU.induct
  case case1 => intro p hp; simp [splitDU] at hp; subst hp; rfl
  case case2 c => intro p hp; simp [splitDU] at hp; subst hp; rfl
  case case3 c₁ c₂ rest h ih =>
    obtain ⟨h1, h2⟩ := h
    subst h1; subst h2
    rw [splitDU_sep]
    intro p hp
    rcases List.mem_cons.mp hp with h' | h'
    · subst h'; rfl
    · exact ih p h'
  case case4 c₁ c₂ rest h hnil ih => exact absurd hnil (splitDU_ne_nil _)
  case case5 c₁ c₂ rest h p ps hsp ih =>
    rw [splitDU_cons_of c₁ c₂ rest p ps h hsp]
    intro q hq
    rcases List.mem_cons.mp hq with h' | h'
    · subst h'
      cases p with
      | nil => rfl
      | cons d t =>
        have hd : d = c₂ := by
          rcases splitDU_head c₂ rest with ⟨_, _, ps', hps'⟩ | ⟨t', ps', hps'⟩
          · rw [hps'] at hsp; cases hsp
          · rw [hps'] at hsp
            injection hsp with h1 _
            injection h1 with hd _
            exact hd.symm
        have hp : hasDU (d :: t) = false :=
          ih _ (by rw [hsp]; exact List.mem_cons_self _ _)
        have hnand : ¬(c₁ = '_' ∧ d = '_') := by rw [hd]; exact h
        show ((c₁ = '_' && d = '_') || hasDU (d :: t)) = false
        rw [hp]
        rcases not_and_or.mp hnand with hne | hne <;> simp [hne]
    · exact ih q (by rw [hsp]; exact List.mem_cons_of_mem _ h')

theorem splitDU_dropLast_endsU (l : List Char) :
    ∀ p ∈ (splitDU l).dropLast, endsU p = false := by
  induction l using splitDU.induct
  case case1 => intro p hp; simp [splitDU] at hp
  case case2 c => intro p hp; simp [splitDU] at hp
  case case3 c₁ c₂ rest h ih =>
    obtain ⟨h1, h2⟩ := h
    subst h1; subst h2
    rw [splitDU_sep]
    intro p hp
    rcases hs : splitDU rest with _ | ⟨q, qs⟩
    · exact absurd hs (splitDU_ne_nil _)
    · rw [hs] at hp
      simp only [List.dropLast_cons₂, List.mem_cons] at hp
      rcases hp with h' | h'
      · subst h'; rfl
      · exact ih p (by rw [hs]; exact h')
  case case4 c₁ c₂ rest h hnil ih => exact absurd hnil (splitDU_ne_nil _)
  case case5 c₁ c₂ rest h p ps hsp ih =>
    rw [splitDU_cons_of c₁ c₂ rest p ps h hsp]
    intro q hq
    cases ps with
    | nil => simp at hq
    | cons r rs =>
      simp only [List.dropLast_cons₂, List.mem_cons] at hq
      rcases hq with h' | h'
      · subst h'
        cases p with
        | nil =>
          rcases splitDU_head c₂ rest with ⟨hc₂, _, ps', hps'⟩ | ⟨t', ps', hps'⟩
          · have hc₁ : ¬ c₁ = '_' := fun hc₁ => h ⟨hc₁, hc₂⟩
            show decide (c₁ = '_') = false
            simp [hc₁]
          · rw [hps'] at hsp; injection hsp with h1 _; cases h1
        | cons d t =>
          have : endsU (d :: t) = false := by
            apply ih
            rw [hsp]
            simp [List.dropLast_cons₂]
          rw [endsU_cons₂]
          exact this
      · exact ih q (by rw [hsp]; simp [List.dropLast_cons₂, h'])

theorem splitDU_atomic (p : List Char) (h : hasDU p = false) :
    splitDU p = [p] := by
  induction p using splitDU.induct
  case case1 => rfl
  case case2 c => rfl
  case case3 c₁ c₂ rest hsep ih =>
    obtain ⟨h1, h2⟩ := hsep
    subst h1; subst h2
    exfalso
    have : hasDU ('_' :: '_' :: rest) = true := by
      show ((('_' : Char) = '_' && ('_' : Char) = '_') || hasDU ('_' :: rest)) = true
      simp
    rw [this] at h; cases h
  case case4 c₁ c₂ rest hsep hnil ih => exact absurd hnil (splitDU_ne_nil _)
  case case5 c₁ c₂ rest hsep p ps hsp ih =>
    have h2 : hasDU (c₂ :: rest) = false := by
      have : hasDU (c₁ :: c₂ :: rest) =
          ((c₁ = '_' && c₂ = '_') || hasDU (c₂ :: rest)) := rfl
      rw [this] at h
      exact (Bool.or_eq_false_iff.mp h).2
    rw [ih h2] at hsp
    injection hsp with h1 h2'
    subst h1; subst h2'
    exact splitDU_cons_of c₁ c₂ rest _ _ hsep (ih h2)

theorem splitDU_append_sep (x y : List Char) (hx : endsU x = false) :
    splitDU (x ++ '_' :: '_' :: y) = splitDU x ++ splitDU y := by
  induction x using splitDU.induct
  case case1 => rw [List.nil_append, splitDU_sep]; rfl
  case case2 c =>
    have hc : ¬ c = '_' := by
      intro hc; subst hc; cases hx
    simp only [List.cons_append, List.nil_append]
    rw [splitDU_cons_of c '_' ('_' :: y) [] (splitDU y)
      (fun hh => hc hh.1) (splitDU_sep y)]
    rfl
  case case3 c₁ c₂ rest h ih =>
    obtain ⟨h1, h2⟩ := h
    subst h1; subst h2
    cases rest with
    | nil => cases hx
    | cons d t =>
      have hx' : endsU (d :: t) = false := hx
      simp only [List.cons_append] at ih ⊢
      rw [splitDU_sep, splitDU_sep, ih hx']
      rfl
  case case4 c₁ c₂ rest h hnil ih => exact absurd hnil (splitDU_ne_nil _)
  case case5 c₁ c₂ rest h p ps hsp ih =>
    have hx' : endsU (c₂ :: rest) = false := hx
    have hrec := ih hx'
    rw [hsp] at hrec
    simp only [List.cons_append] at hrec ⊢
    rw [splitDU_cons_of c₁ c₂ (rest ++ '_' :: '_' :: y) p
      (ps ++ splitDU y) h hrec]
    rw [splitDU_cons_of c₁ c₂ rest p ps h hsp]
    rfl

theorem splitDU_joinDU (L : List (List Char)) (hne : L ≠ [])
    (h1 : ∀ p ∈ L, hasDU p = false) (h2 : ∀ p ∈ L.dropLast, endsU p = false) :
    splitDU (joinDU L) = L := by
  induction L with
  | nil => exact absurd rfl hne
  | cons p ps ih =>
    cases ps with
    | nil =>
      show splitDU (joinDU [p]) = [p]
      exact splitDU_atomic p (h1 p (List.mem_cons_self _ _))
    | cons q qs =>
      rw [joinDU_cons p (q :: qs) (by simp)]
      rw [splitDU_append_sep p (joinDU (q :: qs))
        (h2 p (by simp [List.dropLast_cons₂]))]
      rw [splitDU_atomic p (h1 p (List.mem_cons_self _ _))]
      rw [ih (by simp)
        (fun r hr => h1 r (List.mem_cons_of_mem _ hr))
        (fun r hr => h2 r
          (by rw [List.dropLast_cons₂]; exact List.mem_cons_of_mem _ hr))]
      rfl


theorem stripMods_isSome (ps : List (List Char)) :
    ∀ acc, (∃ p ∈ ps, hasColon p = false) → (stripMods ps acc).isSome := by
  induction ps with
  | nil => intro acc h; simp at h
  | cons p ps' ih =>
    intro acc h
    show (stripMods (p :: ps') acc).isSome
    by_cases hc : hasColon p
    · have : stripMods (p :: ps') acc = stripMods ps' (insStep acc p) := by
        simp [stripMods, hc, insStep]
      rw [this]
      apply ih
      rcases h with ⟨q, hq, hqc⟩
      rcases List.mem_cons.mp hq with h' | h'
      · subst h'; rw [hc] at hqc; cases hqc
      · exact ⟨q, h', hqc⟩
    · simp [stripMods, hc]

theorem stripMods_some (ps : List (List Char)) :
    ∀ acc bp res, stripMods ps acc = some (bp, res) →
    ∃ consumed rest, ps = consumed ++ rest ∧ rest ≠ [] ∧
      bp = rest.reverse ∧ (∀ q ∈ consumed, hasColon q = true) ∧
      (∃ p rest', rest = p :: rest' ∧ hasColon p = false) ∧
      res = consumed.foldl insStep acc := by
  induction ps with
  | nil => intro acc bp res h; exact Option.noConfusion h
  | cons p ps' ih =>
    intro acc bp res h
    by_cases hc : hasColon p
    · have heq : stripMods (p :: ps') acc = stripMods ps' (insStep acc p) := by
        simp [stripMods, hc, insStep]
      rw [heq] at h
      obtain ⟨consumed, rest, h1, h2, h3, h4, h5, h6⟩ := ih _ _ _ h
      refine ⟨p :: consumed, rest, ?_, h2, h3, ?_, h5, ?_⟩
      · rw [List.cons_append, h1]
      · intro q hq
        rcases List.mem_cons.mp hq with h' | h'
        · subst h'; exact hc
        · exact h4 q h'
      · rw [List.foldl_cons]; exact h6
    · have heq : stripMods (p :: ps') acc = some ((p :: ps').reverse, acc) := by
        simp [stripMods, hc]
      rw [heq] at h
      injection h with h'
      injection h' with hbp hres
      exact ⟨[], p :: ps', rfl, by simp, hbp.symm, by simp,
        ⟨p, ps', rfl, Bool.not_eq_true _ ▸ hc⟩, hres.symm⟩

theorem dinsert_ne_nil {β : Type} (d : List (List Char × β)) (k : List Char)
    (v : β) : dinsert d k v ≠ [] := by
  cases d with
  | nil => simp [dinsert]
  | cons kv d' =>
    obtain ⟨k₀, v₀⟩ := kv
    simp only [dinsert]
    split <;> simp

theorem foldl_insStep_ne_nil (qs : List (List Char)) :
    ∀ d : List (List Char × List Char), qs ≠ [] ∨ d ≠ [] →
      qs.foldl insStep d ≠ [] := by
  induction qs with
  | nil =>
    intro d h
    rcases h with h | h
    · exact absurd rfl h
    · simpa using h
  | cons q qs' ih =>
    intro d _
    rw [List.foldl_cons]
    exact ih _ (Or.inr (dinsert_ne_nil _ _ _))

theorem parse_structure (name b : List Char) (m : List (List Char × List Char))
    (h : parse_metric_modifiers name = some (b, m)) :
    ∃ bparts popped, splitDU name = bparts ++ popped ∧ bparts ≠ [] ∧
      b = joinDU bparts ∧ hasColon (bparts.getLastD []) = false ∧
      (∀ q ∈ popped, hasColon q = true) ∧
      m = (popped.reverse.foldl insStep []).reverse := by
  unfold parse_metric_modifiers at h
  rcases hs : stripMods (splitDU name).reverse [] with _ | ⟨bp, res⟩
  · rw [hs] at h; exact Option.noConfusion h
  · rw [hs] at h
    injection h with h'
    injection h' with hb hm
    obtain ⟨consumed, rest, h1, h2, h3, h4, h5, h6⟩ :=
      stripMods_some _ _ _ _ hs
    refine ⟨rest.reverse, consumed.reverse, ?_, by simpa using h2, ?_, ?_, ?_, ?_⟩
    · have := congrArg List.reverse h1
      rw [List.reverse_reverse, List.reverse_append] at this
      exact this
    · rw [← hb, h3]
    · obtain ⟨p, rest', hrest, hpc⟩ := h5
      rw [hrest, List.reverse_cons, List.getLastD_concat]
      exact hpc
    · intro q hq
      exact h4 q (List.mem_reverse.mp hq)
    · rw [← hm, h6, List.reverse_reverse]

theorem parse_isSome_of_part (name : List Char)
    (h : ∃ p ∈ splitDU name, hasColon p = false) :
    (parse_metric_modifiers name).isSome := by
  rcases h with ⟨p, hp, hpc⟩
  have h1 := stripMods_isSome (splitDU name).reverse []
    ⟨p, List.mem_reverse.mpr hp, hpc⟩
  unfold parse_metric_modifiers
  rcases hs : stripMods (splitDU name).reverse [] with _ | ⟨bp, res⟩
  · rw [hs] at h1; cases h1
  · simp

theorem parse_of_last_no_colon (name : List Char)
    (h : hasColon ((splitDU name).getLastD []) = false) :
    parse_metric_modifiers name = some (name, []) := by
  rcases hrev : (splitDU name).reverse with _ | ⟨q, qs⟩
  · exact absurd (List.reverse_eq_nil_iff.mp hrev) (splitDU_ne_nil name)
  · have hq : q = (splitDU name).getLastD [] := by
      have : splitDU name = (q :: qs).reverse := by
        rw [← hrev, List.reverse_reverse]
      rw [this, List.reverse_cons, List.getLastD_concat]
    have hqc : hasColon q = false := by rw [hq]; exact h
    unfold parse_metric_modifiers
    rw [hrev]
    have : stripMods (q :: qs) [] = some ((q :: qs).reverse, []) := by
      simp [stripMods, hqc]
    rw [this]
    have h2 : (q :: qs).reverse = splitDU name := by
      rw [← hrev, List.reverse_reverse]
    rw [h2]
    show some (joinDU (splitDU name), ([] : List (List Char × List Char)).reverse) = some (name, [])
    rw [joinDU_splitDU]
    rfl

/-- C1 amended: `parse_metric_modifiers` terminates and returns a
(base, modifiers) pair without error for every input string that has at least
one `"__"`-separated part not containing a colon; in particular, a name whose
last part contains no colon is returned whole as the base with an empty
modifier mapping. -/
theorem C1_amended (name : List Char)
    (h : ∃ p ∈ splitDU name, hasColon p = false) :
    (parse_metric_modifiers name).isSome ∧
      (hasColon ((splitDU name).getLastD []) = false →
        parse_metric_modifiers name = some (name, [])) :=
  ⟨parse_isSome_of_part name h, parse_of_last_no_colon name⟩

/-- C1 amended, witnessed on the concrete modifier-free name
`"cell_count"`. -/
theorem C1_amended_witness :
    ((∃ p ∈ splitDU (str "cell_count"), hasColon p = false) ∧
      (parse_metric_modifiers (str "cell_count")).isSome ∧
      parse_metric_modifiers (str "cell_count") =
        some (str "cell_count", [])) := by
  refine ⟨by decide, ?_⟩
  have h := C1_amended (str "cell_count") (by decide)
  exact ⟨h.1, h.2 (by decide)⟩

theorem parse_base_split (name b : List Char) (m : List (List Char × List Char))
    (h : parse_metric_modifiers name = some (b, m)) :
    ∃ popped, splitDU name = splitDU b ++ popped ∧
      (∀ q ∈ popped, hasColon q = true) ∧
      hasColon ((splitDU b).getLastD []) = false ∧
      (m = [] ↔ popped = []) := by
  obtain ⟨bparts, popped, hsplit, hbne, hb, hlast, hcol, hm⟩ :=
    parse_structure name b m h
  have hsb : splitDU b = bparts := by
    by_cases hpe : popped = []
    · subst hpe
      rw [List.append_nil] at hsplit
      rw [hb, ← hsplit, joinDU_splitDU, hsplit]
    · apply Eq.trans (congrArg splitDU hb)
      apply splitDU_joinDU bparts hbne
      · intro p hp
        exact splitDU_no_sep name p (by rw [hsplit]; exact List.mem_append_left _ hp)
      · intro p hp
        apply splitDU_dropLast_endsU name
        rw [hsplit, List.dropLast_append_of_ne_nil _ hpe]
        exact List.mem_append_left _ (List.dropLast_subset _ hp)
  refine ⟨popped, by rw [hsb]; exact hsplit, hcol, by rw [hsb]; exact hlast, ?_⟩
  constructor
  · intro hme
    by_contra hpe
    have : popped.reverse.foldl insStep [] ≠ [] :=
      foldl_insStep_ne_nil _ _ (Or.inl (by simpa using hpe))
    rw [hme] at hm
    exact this (by simpa using hm.symm)
  · intro hpe
    subst hpe
    simpa using hm

/-- C4 amended: `parse_metric_modifiers` strips a trailing `"__"`-separated
part as a modifier exactly when that part contains a colon: on a successful
parse the name's parts are the base's parts followed by the popped parts, all
popped parts contain a colon, the scan stopped at a base-final part without a
colon, and the modifier mapping is empty exactly when nothing was popped. -/
theorem C4_amended (name b : List Char) (m : List (List Char × List Char))
    (h : parse_metric_modifiers name = some (b, m)) :
    ∃ popped, splitDU name = splitDU b ++ popped ∧
      (∀ q ∈ popped, hasColon q = true) ∧
      hasColon ((splitDU b).getLastD []) = false ∧
      (m = [] ↔ popped = []) :=
  parse_base_split name b m h

/-- C4 amended, witnessed on `"x__a__k:v__j:w"`, whose two trailing
colon-bearing parts are stripped and whose other parts form the base. -/
theorem C4_amended_witness :
    parse_metric_modifiers (str "x__a__k:v__j:w") =
        some (str "x__a", [(str "k", str "v"), (str "j", str "w")]) ∧
      (∃ popped, splitDU (str "x__a__k:v__j:w") =
          splitDU (str "x__a") ++ popped ∧
        (∀ q ∈ popped, hasColon q = true) ∧
        hasColon ((splitDU (str "x__a")).getLastD []) = false ∧
        (([(str "k", str "v"), (str "j", str "w")] :
            List (List Char × List Char)) = [] ↔ popped = [])) :=
  ⟨by decide, C4_amended _ _ _ (by decide)⟩

theorem alistGet_dinsert_self {β : Type} (d : List (List Char × β))
    (k : List Char) (v : β) : alistGet (dinsert d k v) k = some v := by
  induction d with
  | nil => simp [dinsert, alistGet]
  | cons kv d' ih =>
    obtain ⟨k₀, v₀⟩ := kv
    by_cases hk : k₀ = k
    · simp [dinsert, hk, alistGet]
    · simp [dinsert, hk, alistGet, ih]

theorem alistGet_dinsert_other {β : Type} (d : List (List Char × β))
    (k k' : List Char) (v : β) (h : k' ≠ k) :
    alistGet (dinsert d k v) k' = alistGet d k' := by
  induction d with
  | nil => simp [dinsert, alistGet, Ne.symm h]
  | cons kv d' ih =>
    obtain ⟨k₀, v₀⟩ := kv
    by_cases hk : k₀ = k
    · subst hk
      simp [dinsert, alistGet, Ne.symm h]
    · simp [dinsert, hk, alistGet, ih]

theorem segStr_length (kv : List Char × List Char) :
    (segStr kv).length = kv.1.length + kv.2.length + 3 := by
  simp [segStr]
  omega

theorem chainKeys_length_ge (mods : List (List Char × List Char)) :
    ∀ soFar q, q ∈ chainKeys soFar mods → soFar.length ≤ q.length := by
  induction mods with
  | nil => intro soFar q hq; simp [chainKeys] at hq
  | cons kv rest ih =>
    intro soFar q hq
    rcases List.mem_cons.mp hq with h' | h'
    · subst h'; exact Nat.le_refl _
    · have := ih (soFar ++ segStr kv) q h'
      rw [List.length_append] at this
      omega

theorem foldModsAux_get (start : Int) (fn : List Int → Int) (value : Int)
    (mods : List (List Char × List Char)) :
    ∀ agg soFar q,
      alistGet (foldModsAux start fn value agg soFar mods) q =
        if q ∈ chainKeys soFar mods then
          some (fn [pyOrInt (alistGet agg q) start, value])
        else alistGet agg q := by
  induction mods with
  | nil => intro agg soFar q; simp [foldModsAux, chainKeys]
  | cons kv rest ih =>
    intro agg soFar q
    show alistGet (foldModsAux start fn value
        (dinsert agg soFar (fn [pyOrInt (alistGet agg soFar) start, value]))
        (soFar ++ segStr kv) rest) q = _
    rw [ih]
    rw [show chainKeys soFar (kv :: rest) =
      soFar :: chainKeys (soFar ++ segStr kv) rest from rfl]
    by_cases hq : q = soFar
    · subst hq
      have hnot : q ∉ chainKeys (q ++ segStr kv) rest := by
        intro hmem
        have := chainKeys_length_ge rest (q ++ segStr kv) q hmem
        rw [List.length_append, segStr_length] at this
        omega
      rw [if_neg hnot, alistGet_dinsert_self]
      rw [if_pos (List.mem_cons_self _ _)]
    · rw [alistGet_dinsert_other _ _ _ _ hq]
      by_cases hmem : q ∈ chainKeys (soFar ++ segStr kv) rest
      · rw [if_pos hmem, if_pos (List.mem_cons_of_mem _ hmem)]
      · rw [if_neg hmem, if_neg ?_]
        intro hc
        rcases List.mem_cons.mp hc with h' | h'
        · exact hq h'
        · exact hmem h'

/-- C2 amended: at every iteration of the inner aggregation loop — the first
or any subsequent fold into a prefix — the value stored under the current
prefix `metric_name_so_far` is `reducer([current, value])` where `current` is
the stored accumulator if it is truthy and the rule's initial accumulator
when the stored value is absent or falsy (Python's
`aggregated.get(...) or start`). -/
theorem C2_amended (start : Int) (fn : List Int → Int) (value : Int)
    (agg : List (List Char × Int)) (soFar : List Char)
    (k v : List Char) (rest : List (List Char × List Char)) :
    alistGet (foldModsAux start fn value agg soFar ((k, v) :: rest)) soFar =
      some (fn [pyOrInt (alistGet agg soFar) start, value]) := by
  have hmem : soFar ∈ chainKeys soFar ((k, v) :: rest) :=
    List.mem_cons_self _ _
  rw [foldModsAux_get, if_pos hmem]

theorem splitColon1_cons_ne (c : Char) (z : List Char) (h : ¬ c = ':') :
    splitColon1 (c :: z) = ((splitColon1 z).1.cons c, (splitColon1 z).2) := by
  simp [splitColon1, h]

theorem splitColon1_core (k v : List Char) (h : ¬ ':' ∈ k) :
    splitColon1 (k ++ ':' :: v) = (k, v) := by
  induction k with
  | nil => rfl
  | cons c t ih =>
    have hc : ¬ c = ':' := fun hc => h (hc ▸ List.mem_cons_self _ _)
    rw [List.cons_append, splitColon1_cons_ne c _ hc,
      ih (fun hm => h (List.mem_cons_of_mem _ hm))]

theorem hasColon_core (x y : List Char) : hasColon (x ++ ':' :: y) = true := by
  simp [hasColon]

theorem hasDU_append_cons (c : Char) (hc : ¬ c = '_') (x : List Char) :
    ∀ y, hasDU x = false → hasDU y = false → hasDU (x ++ c :: y) = false := by
  induction x using hasDU.induct
  case case1 =>
    intro y hx hy
    cases y with
    | nil => rfl
    | cons d t =>
      show ((c = '_' && d = '_') || hasDU (d :: t)) = false
      simp [hc, hy]
  case case2 a =>
    intro y hx hy
    show ((a = '_' && c = '_') || hasDU (c :: y)) = false
    have h1 : hasDU (c :: y) = false := by
      cases y with
      | nil => rfl
      | cons d t =>
        show ((c = '_' && d = '_') || hasDU (d :: t)) = false
        simp [hc, hy]
    simp [hc, h1]
  case case3 a b t ih =>
    intro y hx hy
    have hx' : hasDU (b :: t) = false := by
      have : hasDU (a :: b :: t) = ((a = '_' && b = '_') || hasDU (b :: t)) :=
        rfl
      rw [this] at hx
      exact (Bool.or_eq_false_iff.mp hx).2
    have hab : (decide (a = '_') && decide (b = '_')) = false := by
      have : hasDU (a :: b :: t) = ((a = '_' && b = '_') || hasDU (b :: t)) :=
        rfl
      rw [this] at hx
      exact (Bool.or_eq_false_iff.mp hx).1
    show ((a = '_' && b = '_') || hasDU (b :: (t ++ c :: y))) = false
    rw [hab]
    have := ih y hx' hy
    rw [List.cons_append] at this
    simp [this]

theorem endsU_append (x : List Char) :
    ∀ y, y ≠ [] → endsU (x ++ y) = endsU y := by
  induction x with
  | nil => intro y hy; rfl
  | cons a t ih =>
    intro y hy
    rw [List.cons_append, endsU_cons_of_ne a (t ++ y)
      (by simp [hy]), ih y hy]

theorem segCore_ne_nil (kv : List Char × List Char) : segCore kv ≠ [] := by
  simp [segCore]

theorem hasColon_segCore (kv : List Char × List Char) :
    hasColon (segCore kv) = true := hasColon_core kv.1 kv.2

theorem endsU_segStr (kv : List Char × List Char) :
    endsU (segStr kv) = endsU (segCore kv) := by
  show endsU ('_' :: '_' :: segCore kv) = endsU (segCore kv)
  rw [endsU_cons₂, endsU_cons_of_ne '_' (segCore kv) (segCore_ne_nil kv)]

theorem mkName_cons (base : List Char) (s : List Char × List Char)
    (rest : List (List Char × List Char)) :
    mkName base (s :: rest) = mkName (base ++ segStr s) rest := rfl

theorem mkName_split (segs : List (List Char × List Char)) :
    ∀ base, endsU base = false →
      (∀ kv ∈ segs, hasDU (segCore kv) = false ∧ endsU (segCore kv) = false) →
      splitDU (mkName base segs) = splitDU base ++ segs.map segCore := by
  induction segs with
  | nil => intro base _ _; simp [mkName]
  | cons s rest ih =>
    intro base hb hsegs
    rw [mkName_cons]
    have hclean := hsegs s (List.mem_cons_self _ _)
    have hb' : endsU (base ++ segStr s) = false := by
      rw [endsU_append base (segStr s) (by simp [segStr]), endsU_segStr]
      exact hclean.2
    rw [ih (base ++ segStr s) hb'
      (fun kv hkv => hsegs kv (List.mem_cons_of_mem _ hkv))]
    have hsplit : splitDU (base ++ segStr s) =
        splitDU base ++ [segCore s] := by
      show splitDU (base ++ '_' :: '_' :: segCore s) = _
      rw [splitDU_append_sep base (segCore s) hb,
        splitDU_atomic (segCore s) hclean.1]
    rw [hsplit]
    simp

theorem stripMods_all_colon (qs : List (List Char)) :
    ∀ ps acc, (∀ q ∈ qs, hasColon q = true) →
      stripMods (qs ++ ps) acc = stripMods ps (qs.foldl insStep acc) := by
  induction qs with
  | nil => intro ps acc _; rfl
  | cons q qs' ih =>
    intro ps acc h
    rw [List.cons_append]
    have hq : hasColon q = true := h q (List.mem_cons_self _ _)
    show stripMods (q :: (qs' ++ ps)) acc = _
    have : stripMods (q :: (qs' ++ ps)) acc =
        stripMods (qs' ++ ps) (insStep acc q) := by
      simp [stripMods, hq, insStep]
    rw [this, ih ps (insStep acc q)
      (fun r hr => h r (List.mem_cons_of_mem _ hr))]
    rfl

theorem dinsert_fresh {β : Type} (d : List (List Char × β)) (k : List Char)
    (v : β) (h : ∀ kv ∈ d, kv.1 ≠ k) : dinsert d k v = d ++ [(k, v)] := by
  induction d with
  | nil => rfl
  | cons kv d' ih =>
    obtain ⟨k₀, v₀⟩ := kv
    have hk : ¬ k₀ = k := h (k₀, v₀) (List.mem_cons_self _ _)
    simp only [dinsert, if_neg hk, List.cons_append]
    rw [ih (fun kv' hkv' => h kv' (List.mem_cons_of_mem _ hkv'))]

theorem foldl_insStep_fresh (ss : List (List Char × List Char)) :
    ∀ acc, (∀ kv ∈ ss, ¬ ':' ∈ kv.1) →
      (∀ kv ∈ ss, ∀ kv' ∈ acc, kv'.1 ≠ kv.1) →
      (ss.map Prod.fst).Nodup →
      (ss.map segCore).foldl insStep acc = acc ++ ss := by
  induction ss with
  | nil => intro acc _ _ _; simp
  | cons s tail ih =>
    intro acc hks hfresh hnodup
    rw [List.map_cons, List.foldl_cons]
    have hs : insStep acc (segCore s) = acc ++ [s] := by
      unfold insStep
      rw [show segCore s = s.1 ++ ':' :: s.2 from rfl,
        splitColon1_core s.1 s.2 (hks s (List.mem_cons_self _ _))]
      exact dinsert_fresh acc s.1 s.2
        (fun kv' hkv' => hfresh s (List.mem_cons_self _ _) kv' hkv')
    have hnd := hnodup
    rw [List.map_cons] at hnd
    obtain ⟨hne, htail⟩ := List.nodup_cons.mp hnd
    rw [hs, ih (acc ++ [s])
      (fun kv hkv => hks kv (List.mem_cons_of_mem _ hkv))
      ?_ htail]
    · simp
    · intro kv hkv kv' hkv'
      rcases List.mem_append.mp hkv' with h' | h'
      · exact hfresh kv (List.mem_cons_of_mem _ hkv) kv' h'
      · have hkv's : kv' = s := by simpa using h'
        subst hkv's
        intro heq
        exact hne (by rw [heq]; exact List.mem_map_of_mem _ hkv)

/-- C5 amended: the round-trip holds for every base whose last part has no
colon and which does not end in an underscore, and every list of
grammar-well-formed modifier segments with pairwise distinct keys whose keys
and values contain no `"__"` and whose values do not end in `'_'`: parsing
the name built by appending the segments to the base returns exactly that
base and exactly those segments in order. -/
theorem C5_amended (base : List Char) (segs : List (List Char × List Char))
    (hb1 : endsU base = false)
    (hb2 : hasColon ((splitDU base).getLastD []) = false)
    (hsegs : ∀ kv ∈ segs, kv.1 ≠ [] ∧ kv.2 ≠ [] ∧
      kv.1.all isWordOrHyphen = true ∧ kv.2.all isWordOrHyphen = true ∧
      hasDU kv.1 = false ∧ hasDU kv.2 = false ∧ endsU kv.2 = false)
    (hkeys : (segs.map Prod.fst).Nodup) :
    parse_metric_modifiers (mkName base segs) = some (base, segs) := by
  have hcore : ∀ kv ∈ segs,
      hasDU (segCore kv) = false ∧ endsU (segCore kv) = false := by
    intro kv hkv
    obtain ⟨hk1, hv1, hkw, hvw, hkd, hvd, hve⟩ := hsegs kv hkv
    refine ⟨hasDU_append_cons ':' (by decide) kv.1 kv.2 hkd hvd, ?_⟩
    rw [show segCore kv = kv.1 ++ ':' :: kv.2 from rfl,
      endsU_append kv.1 _ (by simp), endsU_cons_of_ne ':' kv.2 hv1]
    exact hve
  have hsplit := mkName_split segs base hb1 hcore
  unfold parse_metric_modifiers
  rw [hsplit, List.reverse_append]
  have hcolon : ∀ q ∈ (segs.map segCore).reverse, hasColon q = true := by
    intro q hq
    obtain ⟨kv, _, rfl⟩ := List.mem_map.mp (List.mem_reverse.mp hq)
    exact hasColon_segCore kv
  rw [stripMods_all_colon ((segs.map segCore).reverse)
    ((splitDU base).reverse) [] hcolon]
  have hrev : (segs.map segCore).reverse = segs.reverse.map segCore := by
    rw [List.map_reverse]
  rw [hrev]
  have hknc : ∀ kv ∈ segs.reverse, ¬ ':' ∈ kv.1 := by
    intro kv hkv hmem
    obtain ⟨_, _, hkw, _, _, _, _⟩ := hsegs kv (List.mem_reverse.mp hkv)
    simp only [List.all_eq_true] at hkw
    exact absurd (hkw ':' hmem) (by decide)
  have hfold : (segs.reverse.map segCore).foldl insStep [] = segs.reverse := by
    rw [foldl_insStep_fresh segs.reverse [] hknc
      (fun kv _ kv' hkv' => absurd hkv' (List.not_mem_nil _))
      (by rw [List.map_reverse]; exact List.nodup_reverse.mpr hkeys)]
    simp
  rw [hfold]
  rcases hrev2 : (splitDU base).reverse with _ | ⟨q, qs⟩
  · exact absurd (List.reverse_eq_nil_iff.mp hrev2) (splitDU_ne_nil base)
  · have hbs : splitDU base = (q :: qs).reverse := by
      rw [← hrev2, List.reverse_reverse]
    have hqc : hasColon q = false := by
      rw [hbs, List.reverse_cons, List.getLastD_concat] at hb2
      exact hb2
    have hstrip : stripMods (q :: qs) segs.reverse =
        some ((q :: qs).reverse, segs.reverse) := by
      simp [stripMods, hqc]
    rw [hstrip]
    show some (joinDU ((q :: qs).reverse), segs.reverse.reverse) =
      some (base, segs)
    rw [← hbs, joinDU_splitDU, List.reverse_reverse]

/-- C5 amended, witnessed on base `"cell_count"` with segments
`corner:ss` and `stage:route`. -/
theorem C5_amended_witness :
    parse_metric_modifiers (mkName (str "cell_count")
        [(str "corner", str "ss"), (str "stage", str "route")]) =
      some (str "cell_count",
        [(str "corner", str "ss"), (str "stage", str "route")]) :=
  C5_amended _ _ (by decide) (by decide) (by decide) (by decide)

theorem alistGet_none {β : Type} (d : List (List Char × β)) (k : List Char)
    (h : ∀ kv ∈ d, kv.1 ≠ k) : alistGet d k = none := by
  induction d with
  | nil => rfl
  | cons kv d' ih =>
    obtain ⟨k₀, v₀⟩ := kv
    have : ¬ k₀ = k := h (k₀, v₀) (List.mem_cons_self _ _)
    simp only [alistGet, if_neg this]
    exact ih (fun kv' hkv' => h kv' (List.mem_cons_of_mem _ hkv'))

theorem keys_dinsert {β : Type} (d : List (List Char × β)) (k : List Char)
    (v : β) :
    (dinsert d k v).map Prod.fst = d.map Prod.fst ∨
      (dinsert d k v).map Prod.fst = d.map Prod.fst ++ [k] := by
  induction d with
  | nil => right; rfl
  | cons kv d' ih =>
    obtain ⟨k₀, v₀⟩ := kv
    by_cases hk : k₀ = k
    · left; simp [dinsert, hk]
    · rcases ih with h' | h'
      · left; simp [dinsert, hk, h']
      · right; simp [dinsert, hk, h']

theorem keysNodup_dinsert {β : Type} (d : List (List Char × β))
    (k : List Char) (v : β) (h : keysNodup d) : keysNodup (dinsert d k v) := by
  induction d with
  | nil => simp [dinsert, keysNodup]
  | cons kv d' ih =>
    obtain ⟨k₀, v₀⟩ := kv
    unfold keysNodup at h
    rw [List.map_cons, List.nodup_cons] at h
    by_cases hk : k₀ = k
    · unfold keysNodup
      simp only [dinsert, if_pos hk, List.map_cons, List.nodup_cons]
      exact h
    · unfold keysNodup
      simp only [dinsert, if_neg hk, List.map_cons, List.nodup_cons]
      refine ⟨?_, ih h.2⟩
      rcases keys_dinsert d' k v with h' | h'
      · rw [h']; exact h.1
      · rw [h']
        intro hmem
        rcases List.mem_append.mp hmem with h'' | h''
        · exact h.1 h''
        · have : k₀ = k := by simpa using h''
          exact hk this

theorem alistGet_pyUpdate (agg : List (List Char × Int)) :
    ∀ d k, keysNodup agg →
      alistGet (pyUpdate d agg) k =
        match alistGet agg k with
        | some v => some v
        | none => alistGet d k := by
  induction agg with
  | nil => intro d k _; rfl
  | cons kv rest ih =>
    intro d k hnd
    obtain ⟨k₀, v₀⟩ := kv
    unfold keysNodup at hnd
    rw [List.map_cons, List.nodup_cons] at hnd
    have hstep : pyUpdate d ((k₀, v₀) :: rest) =
        pyUpdate (dinsert d k₀ v₀) rest := rfl
    rw [hstep, ih (dinsert d k₀ v₀) k hnd.2]
    by_cases hk : k = k₀
    · subst hk
      have hrest : alistGet rest k = none := by
        apply alistGet_none
        intro kv' hkv' heq
        exact hnd.1 (by rw [← heq]; exact List.mem_map.mpr ⟨kv', hkv', rfl⟩)
      rw [hrest, alistGet_dinsert_self]
      simp [alistGet]
    · rw [alistGet_dinsert_other _ _ _ _ hk]
      have : alistGet ((k₀, v₀) :: rest) k = alistGet rest k := by
        simp [alistGet, Ne.symm hk]
      rw [this]

theorem keysNodup_foldModsAux (start : Int) (fn : List Int → Int) (value : Int)
    (mods : List (List Char × List Char)) :
    ∀ agg soFar, keysNodup agg →
      keysNodup (foldModsAux start fn value agg soFar mods) := by
  induction mods with
  | nil => intro agg soFar h; exact h
  | cons kv rest ih =>
    intro agg soFar h
    exact ih _ _ (keysNodup_dinsert _ _ _ h)

theorem keysNodup_aggStepT (rules : Registry) (agg : List (List Char × Int))
    (nv : List Char × Int) (h : keysNodup agg) :
    keysNodup (aggStepT rules agg nv) := by
  unfold aggStepT
  rcases parse_metric_modifiers nv.1 with _ | ⟨base, mods⟩
  · exact h
  · dsimp only
    split
    · exact h
    · rcases rules base with _ | e
      · exact h
      · dsimp only
        rcases RegistryEntry.agg e with _ | a
        · exact h
        · dsimp only
          split
          · exact h
          · exact keysNodup_foldModsAux _ _ _ _ _ _ h

theorem keysNodup_aggLoop (rules : Registry)
    (input : List (List Char × Int)) :
    ∀ agg aggd, aggLoop rules agg input = some aggd → keysNodup agg →
      keysNodup aggd := by
  induction input with
  | nil =>
    intro agg aggd h hnd
    injection h with h'
    exact h' ▸ hnd
  | cons nv rest ih =>
    intro agg aggd h hnd
    unfold aggLoop at h
    rcases hp : parse_metric_modifiers nv.1 with _ | pm
    · rw [hp] at h; exact Option.noConfusion h
    · rw [hp] at h
      exact ih _ _ h (keysNodup_aggStepT rules agg nv hnd)

theorem aggStepT_get (rules : Registry) (agg : List (List Char × Int))
    (nv : List Char × Int) (k : List Char) :
    alistGet (aggStepT rules agg nv) k = entryEffect rules nv k (alistGet agg k) := by
  unfold aggStepT entryEffect
  rcases parse_metric_modifiers nv.1 with _ | ⟨base, mods⟩
  · rfl
  · dsimp only
    split
    · rfl
    · rcases rules base with _ | e
      · rfl
      · dsimp only
        rcases RegistryEntry.agg e with _ | a
        · rfl
        · dsimp only
          split
          · rfl
          · rw [foldModsAux_get]

theorem aggLoop_get (rules : Registry) (input : List (List Char × Int)) :
    ∀ agg aggd k, aggLoop rules agg input = some aggd →
      alistGet aggd k =
        input.foldl (fun a nv => entryEffect rules nv k a) (alistGet agg k) := by
  induction input with
  | nil =>
    intro agg aggd k h
    injection h with h'
    rw [← h']
    rfl
  | cons nv rest ih =>
    intro agg aggd k h
    unfold aggLoop at h
    rcases hp : parse_metric_modifiers nv.1 with _ | pm
    · rw [hp] at h; exact Option.noConfusion h
    · rw [hp] at h
      rw [List.foldl_cons, ← aggStepT_get]
      exact ih _ _ k h

theorem entryEffect_not_writes (rules : Registry) (nv : List Char × Int)
    (k : List Char) (a : Option Int) (h : k ∉ entryWrites rules nv.1) :
    entryEffect rules nv k a = a := by
  unfold entryEffect
  unfold entryWrites at h
  rcases hp : parse_metric_modifiers nv.1 with _ | ⟨base, mods⟩
  · rfl
  · rw [hp] at h
    dsimp only at h ⊢
    by_cases h1 : mods.length < 1
    · rw [if_pos h1]
    · rw [if_neg h1] at h ⊢
      rcases hr : rules base with _ | e
      · rfl
      · rw [hr] at h
        dsimp only at h ⊢
        rcases ha : RegistryEntry.agg e with _ | a'
        · rfl
        · rw [ha] at h
          dsimp only at h ⊢
          by_cases h2 :
              ((mods.map Prod.fst).any fun key => e.dontAggregate.contains key) = true
          · rw [if_pos h2]
          · rw [if_neg h2] at h ⊢
            rw [if_neg h]

theorem foldl_effect_id (rules : Registry) (k : List Char)
    (es : List (List Char × Int)) :
    ∀ a, (∀ e ∈ es, k ∉ entryWrites rules e.1) →
      es.foldl (fun a nv => entryEffect rules nv k a) a = a := by
  induction es with
  | nil => intro a _; rfl
  | cons nv rest ih =>
    intro a h
    rw [List.foldl_cons,
      entryEffect_not_writes rules nv k a (h nv (List.mem_cons_self _ _))]
    exact ih a (fun e he => h e (List.mem_cons_of_mem _ he))

theorem aggd_key_from_entry (rules : Registry)
    (input : List (List Char × Int)) (aggd : List (List Char × Int))
    (k : List Char) (v : Int) (h : aggLoop rules [] input = some aggd)
    (hv : alistGet aggd k = some v) :
    ∃ nv ∈ input, k ∈ entryWrites rules nv.1 := by
  by_contra hc
  push_neg at hc
  rw [aggLoop_get rules input [] aggd k h,
    foldl_effect_id rules k input (alistGet [] k) hc] at hv
  exact Option.noConfusion hv

theorem segsLen_append (a b : List (List Char × List Char)) :
    segsLen (a ++ b) = segsLen a + segsLen b := by
  simp [segsLen]

theorem segsLen_cons (kv : List Char × List Char)
    (rest : List (List Char × List Char)) :
    segsLen (kv :: rest) = kv.1.length + kv.2.length + 3 + segsLen rest := by
  simp [segsLen]

theorem segsLen_ge (m : List (List Char × List Char)) :
    3 * m.length ≤ segsLen m := by
  induction m with
  | nil => simp [segsLen]
  | cons kv rest ih =>
    rw [segsLen_cons, List.length_cons]
    omega

theorem segsLen_reverse (m : List (List Char × List Char)) :
    segsLen m.reverse = segsLen m := by
  unfold segsLen
  rw [List.map_reverse, List.sum_reverse]

theorem segsLen_take_lt (m : List (List Char × List Char)) (j : Nat)
    (hj : j < m.length) : segsLen (m.take j) + 3 ≤ segsLen m := by
  have hsplit : segsLen m = segsLen (m.take j) + segsLen (m.drop j) := by
    rw [← segsLen_append, List.take_append_drop]
  have hlen : 1 ≤ (m.drop j).length := by
    rw [List.length_drop]
    omega
  have := segsLen_ge (m.drop j)
  omega

theorem chainKeys_mem_length (mods : List (List Char × List Char)) :
    ∀ soFar w, w ∈ chainKeys soFar mods →
      ∃ j, j < mods.length ∧
        w.length = soFar.length + segsLen (mods.take j) := by
  induction mods with
  | nil => intro soFar w hw; simp [chainKeys] at hw
  | cons kv rest ih =>
    intro soFar w hw
    rcases List.mem_cons.mp hw with h' | h'
    · subst h'
      exact ⟨0, by simp, by simp [segsLen]⟩
    · obtain ⟨j, hj, hlen⟩ := ih (soFar ++ segStr kv) w h'
      refine ⟨j + 1, by simp; omega, ?_⟩
      rw [hlen, List.length_append, segStr_length,
        show (kv :: rest).take (j + 1) = kv :: rest.take j from rfl,
        segsLen_cons]
      omega

theorem splitColon1_recon (q : List Char) :
    hasColon q = true → (splitColon1 q).1 ++ ':' :: (splitColon1 q).2 = q := by
  induction q with
  | nil => intro h; exact absurd h (by decide)
  | cons c rest ih =>
    intro h
    by_cases hc : c = ':'
    · subst hc; rfl
    · rw [splitColon1_cons_ne c rest hc]
      have hrest : hasColon rest = true := by
        simp only [hasColon] at h ⊢
        rw [List.contains_cons] at h
        rcases Bool.or_eq_true_iff.mp h with h' | h'
        · exact absurd (beq_iff_eq.mp h').symm hc
        · exact h'
      show (c :: (splitColon1 rest).1) ++ ':' :: (splitColon1 rest).2 = c :: rest
      rw [List.cons_append, ih hrest]

theorem dinsert_segsLen (d : List (List Char × List Char)) (k v : List Char) :
    segsLen (dinsert d k v) ≤ segsLen d + (k.length + v.length + 3) := by
  induction d with
  | nil => simp [dinsert, segsLen]
  | cons kv d' ih =>
    obtain ⟨k₀, v₀⟩ := kv
    by_cases hk : k₀ = k
    · simp only [dinsert, if_pos hk]
      rw [segsLen_cons, segsLen_cons]
      subst hk
      simp only
      omega
    · simp only [dinsert, if_neg hk]
      rw [segsLen_cons, segsLen_cons]
      simp only
      omega

theorem insStep_segsLen (d : List (List Char × List Char)) (q : List Char)
    (h : hasColon q = true) :
    segsLen (insStep d q) ≤ segsLen d + (q.length + 2) := by
  have hrec := splitColon1_recon q h
  have hlen : q.length =
      (splitColon1 q).1.length + (splitColon1 q).2.length + 1 := by
    have hl := congrArg List.length hrec
    simp only [List.length_append, List.length_cons] at hl
    omega
  unfold insStep
  have := dinsert_segsLen d (splitColon1 q).1 (splitColon1 q).2
  omega

theorem foldl_insStep_segsLen (qs : List (List Char)) :
    ∀ acc, (∀ q ∈ qs, hasColon q = true) →
      segsLen (qs.foldl insStep acc) ≤
        segsLen acc + (qs.map (fun q => q.length + 2)).sum := by
  induction qs with
  | nil => intro acc _; simp
  | cons q qs' ih =>
    intro acc h
    rw [List.foldl_cons, List.map_cons, List.sum_cons]
    have h1 := insStep_segsLen acc q (h q (List.mem_cons_self _ _))
    have h2 := ih (insStep acc q) (fun r hr => h r (List.mem_cons_of_mem _ hr))
    omega

theorem joinDU_concat_length (l : List (List Char)) (q : List Char)
    (h : l ≠ []) :
    (joinDU (l ++ [q])).length = (joinDU l).length + 2 + q.length := by
  induction l with
  | nil => exact absurd rfl h
  | cons p ps ih =>
    cases ps with
    | nil =>
      show (joinDU [p, q]).length = (joinDU [p]).length + 2 + q.length
      simp [joinDU]
      omega
    | cons r rs =>
      rw [List.cons_append, joinDU_cons p (r :: rs ++ [q]) (by simp),
        joinDU_cons p (r :: rs) (by simp)]
      have := ih (by simp)
      simp only [List.length_append, List.length_cons] at this ⊢
      omega

theorem joinDU_append_length (popped : List (List Char)) :
    ∀ bparts, bparts ≠ [] →
      (joinDU (bparts ++ popped)).length =
        (joinDU bparts).length + (popped.map (fun q => q.length + 2)).sum := by
  induction popped with
  | nil => intro bparts _; simp
  | cons q rest ih =>
    intro bparts hb
    rw [show bparts ++ q :: rest = (bparts ++ [q]) ++ rest by simp,
      ih (bparts ++ [q]) (by simp), joinDU_concat_length bparts q hb,
      List.map_cons, List.sum_cons]
    omega

theorem entryWrites_length (rules : Registry) (name w : List Char)
    (hw : w ∈ entryWrites rules name) : w.length + 3 ≤ name.length := by
  unfold entryWrites at hw
  rcases hp : parse_metric_modifiers name with _ | ⟨base, mods⟩
  · rw [hp] at hw; simp at hw
  · rw [hp] at hw
    dsimp only at hw
    by_cases h1 : mods.length < 1
    · rw [if_pos h1] at hw; simp at hw
    · rw [if_neg h1] at hw
      rcases hr : rules base with _ | e
      · rw [hr] at hw; simp at hw
      · rw [hr] at hw; dsimp only at hw
        rcases ha : RegistryEntry.agg e with _ | a
        · rw [ha] at hw; simp at hw
        · rw [ha] at hw; dsimp only at hw
          by_cases h2 : ((mods.map Prod.fst).any
              fun key => e.dontAggregate.contains key) = true
          · rw [if_pos h2] at hw; simp at hw
          · rw [if_neg h2] at hw
            obtain ⟨j, hj, hwlen⟩ := chainKeys_mem_length mods base w hw
            obtain ⟨bparts, popped, hsplit, hbne, hb, _, hcol, hm⟩ :=
              parse_structure name base mods hp
            have htake := segsLen_take_lt mods j hj
            have hmlen : segsLen mods =
                segsLen (popped.reverse.foldl insStep []) := by
              rw [hm, segsLen_reverse]
            have hfold := foldl_insStep_segsLen popped.reverse []
              (fun q hq => hcol q (List.mem_reverse.mp hq))
            have hsum : ((popped.reverse.map (fun q => q.length + 2)).sum : Nat) =
                (popped.map (fun q => q.length + 2)).sum := by
              rw [List.map_reverse, List.sum_reverse]
            have hname : name.length = (joinDU bparts).length +
                (popped.map (fun q => q.length + 2)).sum := by
              have hn : name = joinDU (bparts ++ popped) := by
                rw [← hsplit, joinDU_splitDU]
              rw [hn, joinDU_append_length popped bparts hbne]
            have hblen : base.length = (joinDU bparts).length := by rw [hb]
            rw [hwlen, hblen, hname]
            have hsegs0 : segsLen ([] : List (List Char × List Char)) = 0 := rfl
            omega

/-- C6 amended: on a successful aggregation pass, the returned snapshot is
the input overlaid with the computed aggregates (aggregate values take
precedence on key collisions, unshadowed input keys keep their values), every
aggregated key was written while processing some input entry, and every name
an entry writes to is strictly shorter than — in particular different from —
that entry's own full name. -/
theorem C6_amended (input : List (List Char × Int)) (rules : Registry)
    (aggd : List (List Char × Int))
    (h : aggLoop rules [] input = some aggd) :
    aggregate_metrics input rules = some (pyUpdate input aggd) ∧
      (∀ k, alistGet (pyUpdate input aggd) k =
        match alistGet aggd k with
        | some v => some v
        | none => alistGet input k) ∧
      (∀ k v, alistGet aggd k = some v →
        ∃ nv ∈ input, k ∈ entryWrites rules nv.1) ∧
      (∀ nv, nv ∈ input → ∀ w ∈ entryWrites rules nv.1,
        w.length < nv.1.length ∧ w ≠ nv.1) := by
  refine ⟨?_, ?_, ?_, ?_⟩
  · unfold aggregate_metrics; rw [h]; rfl
  · intro k
    exact alistGet_pyUpdate aggd input k
      (keysNodup_aggLoop rules input [] aggd h (by simp [keysNodup]))
  · intro k v hv
    exact aggd_key_from_entry rules input aggd k v h hv
  · intro nv _ w hw
    have hlen := entryWrites_length rules nv.1 w hw
    refine ⟨by omega, ?_⟩
    intro heq
    rw [heq] at hlen
    omega

/-- C6 amended, witnessed on the single entry `"m__k:a"` with a summing rule:
the overlay equals the input extended with the aggregate under `"m"`, which
is strictly shorter than the entry's name. -/
theorem C6_amended_witness :
    aggregate_metrics [(str "m__k:a", 2)] sumRules =
        some (pyUpdate [(str "m__k:a", 2)] [(str "m", 2)]) ∧
      (∃ nv ∈ ([(str "m__k:a", 2)] : List (List Char × Int)),
        str "m" ∈ entryWrites sumRules nv.1) ∧
      ((str "m").length < (str "m__k:a").length ∧ str "m" ≠ str "m__k:a") := by
  have h := C6_amended [(str "m__k:a", 2)] sumRules [(str "m", 2)] (by decide)
  exact ⟨h.1, h.2.2.1 (str "m") 2 (by decide),
    h.2.2.2 (str "m__k:a", 2) (by decide) (str "m") (by decide)⟩

theorem reverse_dropLast {α : Type} (l : List α) :
    l.reverse.dropLast = (l.drop 1).reverse := by
  cases l with
  | nil => rfl
  | cons a t =>
    rw [List.reverse_cons, List.dropLast_concat]
    rfl

theorem mem_take_mono {α : Type} (l : List α) :
    ∀ (j j' : Nat) (x : α), j ≤ j' → x ∈ l.take j → x ∈ l.take j' := by
  induction l with
  | nil => intro j j' x _ hx; simp at hx
  | cons a t ih =>
    intro j j' x hj hx
    cases j with
    | zero => simp at hx
    | succ jj =>
      cases j' with
      | zero => omega
      | succ jj' =>
        rw [List.take_succ_cons] at hx ⊢
        rcases List.mem_cons.mp hx with h' | h'
        · exact h' ▸ List.mem_cons_self _ _
        · exact List.mem_cons_of_mem _ (ih jj jj' x (by omega) h')

theorem mem_take_dropLast {α : Type} (l : List α) (j : Nat) (x : α)
    (hj : j < l.length) (hx : x ∈ l.take j) : x ∈ l.dropLast := by
  rw [List.dropLast_eq_take]
  exact mem_take_mono l j (l.length - 1) x (by omega) hx

theorem getLastD_mem {α : Type} (l : List α) (d : α) (h : l ≠ []) :
    l.getLastD d ∈ l := by
  induction l generalizing d with
  | nil => exact absurd rfl h
  | cons a t ih =>
    cases t with
    | nil => simp
    | cons b t' =>
      rw [List.getLastD_cons]
      exact List.mem_cons_of_mem _ (ih a (by simp))

theorem getLastD_irrel {α : Type} (l : List α) (d d' : α) (h : l ≠ []) :
    l.getLastD d = l.getLastD d' := by
  induction l generalizing d d' with
  | nil => exact absurd rfl h
  | cons a t ih =>
    cases t with
    | nil => simp
    | cons b t' =>
      show (b :: t').getLastD a = (b :: t').getLastD a
      rfl

theorem boundary_unique (l₁ : List (List Char)) :
    ∀ l₂ s₁ s₂ : List (List Char), l₁ ++ s₁ = l₂ ++ s₂ →
      l₁ ≠ [] → l₂ ≠ [] →
      hasColon (l₁.getLastD []) = false → hasColon (l₂.getLastD []) = false →
      (∀ q ∈ s₁, hasColon q = true) → (∀ q ∈ s₂, hasColon q = true) →
      l₁ = l₂ := by
  induction l₁ with
  | nil => intro _ _ _ _ h1 _ _ _ _ _; exact absurd rfl h1
  | cons x l₁' ih =>
    intro l₂ s₁ s₂ heq h1 h2 hc1 hc2 hs1 hs2
    cases l₂ with
    | nil => exact absurd rfl h2
    | cons y l₂' =>
      rw [List.cons_append, List.cons_append] at heq
      injection heq with hxy heq'
      subst hxy
      cases hl₁' : l₁' with
      | nil =>
        cases hl₂' : l₂' with
        | nil => rfl
        | cons z t =>
          exfalso
          subst hl₁'; subst hl₂'
          rw [List.nil_append] at heq'
          have hmem : (z :: t).getLastD [] ∈ s₁ := by
            rw [heq']
            exact List.mem_append_left _ (getLastD_mem _ _ (by simp))
          have htrue := hs1 _ hmem
          have hfalse : hasColon ((z :: t).getLastD []) = false := by
            rw [show ((x :: z :: t).getLastD [] : List Char) =
              (z :: t).getLastD x from rfl] at hc2
            rw [getLastD_irrel (z :: t) [] x (by simp)]
            exact hc2
          rw [htrue] at hfalse
          exact Bool.noConfusion hfalse
      | cons z t =>
        cases hl₂' : l₂' with
        | nil =>
          exfalso
          subst hl₁'; subst hl₂'
          rw [List.nil_append] at heq'
          have hmem : (z :: t).getLastD [] ∈ s₂ := by
            rw [← heq']
            exact List.mem_append_left _ (getLastD_mem _ _ (by simp))
          have htrue := hs2 _ hmem
          have hfalse : hasColon ((z :: t).getLastD []) = false := by
            rw [show ((x :: z :: t).getLastD [] : List Char) =
              (z :: t).getLastD x from rfl] at hc1
            rw [getLastD_irrel (z :: t) [] x (by simp)]
            exact hc1
          rw [htrue] at hfalse
          exact Bool.noConfusion hfalse
        | cons w u =>
          subst hl₁'; subst hl₂'
          have : z :: t = w :: u := by
            apply ih (w :: u) s₁ s₂ heq' (by simp) (by simp) ?_ ?_ hs1 hs2
            · rw [show ((x :: z :: t).getLastD [] : List Char) =
                (z :: t).getLastD x from rfl] at hc1
              rw [getLastD_irrel (z :: t) [] x (by simp)]
              exact hc1
            · rw [show ((x :: w :: u).getLastD [] : List Char) =
                (w :: u).getLastD x from rfl] at hc2
              rw [getLastD_irrel (w :: u) [] x (by simp)]
              exact hc2
          rw [this]

theorem joinDU_concat (l : List (List Char)) (q : List Char) (h : l ≠ []) :
    joinDU (l ++ [q]) = joinDU l ++ '_' :: '_' :: q := by
  induction l with
  | nil => exact absurd rfl h
  | cons p ps ih =>
    cases ps with
    | nil => rfl
    | cons r rs =>
      rw [List.cons_append, joinDU_cons p (r :: rs ++ [q]) (by simp),
        joinDU_cons p (r :: rs) (by simp), ih (by simp)]
      simp

theorem mkName_split_parts (segs : List (List Char × List Char)) :
    ∀ L : List (List Char), L ≠ [] →
      (∀ p ∈ L, hasDU p = false ∧ endsU p = false) →
      (∀ kv ∈ segs, hasDU (segCore kv) = false ∧ endsU (segCore kv) = false) →
      splitDU (mkName (joinDU L) segs) = L ++ segs.map segCore := by
  induction segs with
  | nil =>
    intro L hL hclean _
    show splitDU (joinDU L) = L ++ []
    rw [List.append_nil]
    exact splitDU_joinDU L hL (fun p hp => (hclean p hp).1)
      (fun p hp => (hclean p (List.dropLast_subset _ hp)).2)
  | cons s rest ih =>
    intro L hL hclean hsegs
    rw [mkName_cons]
    have hjoin : joinDU L ++ segStr s = joinDU (L ++ [segCore s]) := by
      rw [joinDU_concat L (segCore s) hL]
      rfl
    rw [hjoin, ih (L ++ [segCore s]) (by simp) ?_ ?_]
    · simp
    · intro p hp
      rcases List.mem_append.mp hp with h' | h'
      · exact hclean p h'
      · have : p = segCore s := by simpa using h'
        subst this
        exact hsegs s (List.mem_cons_self _ _)
    · intro kv hkv
      exact hsegs kv (List.mem_cons_of_mem _ hkv)

theorem chainKeys_mem_mkName (mods : List (List Char × List Char)) :
    ∀ soFar w, w ∈ chainKeys soFar mods →
      ∃ j, j < mods.length ∧ w = mkName soFar (mods.take j) := by
  induction mods with
  | nil => intro soFar w hw; simp [chainKeys] at hw
  | cons kv rest ih =>
    intro soFar w hw
    rcases List.mem_cons.mp hw with h' | h'
    · exact ⟨0, by simp, h'⟩
    · obtain ⟨j, hj, hw'⟩ := ih (soFar ++ segStr kv) w h'
      refine ⟨j + 1, by simp; omega, ?_⟩
      rw [show (kv :: rest).take (j + 1) = kv :: rest.take j from rfl,
        mkName_cons]
      exact hw'

theorem dinsert_mem {β : Type} (d : List (List Char × β)) (k : List Char)
    (v : β) (kv : List Char × β) (h : kv ∈ dinsert d k v) :
    kv ∈ d ∨ kv = (k, v) := by
  induction d with
  | nil => right; simpa [dinsert] using h
  | cons kv₀ d' ih =>
    obtain ⟨k₀, v₀⟩ := kv₀
    by_cases hk : k₀ = k
    · rw [dinsert, if_pos hk] at h
      rcases List.mem_cons.mp h with h' | h'
      · right; rw [h', hk]
      · left; exact List.mem_cons_of_mem _ h'
    · rw [dinsert, if_neg hk] at h
      rcases List.mem_cons.mp h with h' | h'
      · left; exact h' ▸ List.mem_cons_self _ _
      · rcases ih h' with h'' | h''
        · left; exact List.mem_cons_of_mem _ h''
        · right; exact h''

theorem dinsert_drop1 {β : Type} (d : List (List Char × β)) (k : List Char)
    (v : β) (kv : List Char × β) (h : kv ∈ (dinsert d k v).drop 1) :
    kv ∈ d.drop 1 ∨ kv = (k, v) := by
  cases d with
  | nil => simp [dinsert] at h
  | cons kv₀ d' =>
    obtain ⟨k₀, v₀⟩ := kv₀
    by_cases hk : k₀ = k
    · rw [dinsert, if_pos hk] at h
      left; exact h
    · rw [dinsert, if_neg hk] at h
      simp only [List.drop_one, List.tail_cons] at h ⊢
      exact dinsert_mem d' k v kv h

theorem foldl_insStep_mem_all (qs : List (List Char))
    (P : List Char → Prop) :
    ∀ d, (∀ kv ∈ d, P (segCore kv)) →
      (∀ q ∈ qs, hasColon q = true ∧ P q) →
      ∀ kv ∈ qs.foldl insStep d, P (segCore kv) := by
  induction qs with
  | nil => intro d hd _ kv hkv; exact hd kv hkv
  | cons q rest ih =>
    intro d hd hqs kv hkv
    rw [List.foldl_cons] at hkv
    refine ih (insStep d q) ?_
      (fun r hr => hqs r (List.mem_cons_of_mem _ hr)) kv hkv
    intro kv' hkv'
    rcases dinsert_mem d (splitColon1 q).1 (splitColon1 q).2 kv' hkv' with
      h' | h'
    · exact hd kv' h'
    · obtain ⟨hq1, hq2⟩ := hqs q (List.mem_cons_self _ _)
      rw [h']
      show P (segCore ((splitColon1 q).1, (splitColon1 q).2))
      rw [show segCore ((splitColon1 q).1, (splitColon1 q).2) =
        (splitColon1 q).1 ++ ':' :: (splitColon1 q).2 from rfl,
        splitColon1_recon q hq1]
      exact hq2

theorem foldl_insStep_mem_drop1 (qs : List (List Char))
    (P : List Char → Prop) :
    ∀ d, (∀ kv ∈ d.drop 1, P (segCore kv)) →
      (∀ q ∈ qs, hasColon q = true ∧ P q) →
      ∀ kv ∈ (qs.foldl insStep d).drop 1, P (segCore kv) := by
  induction qs with
  | nil => intro d hd _ kv hkv; exact hd kv hkv
  | cons q rest ih =>
    intro d hd hqs kv hkv
    rw [List.foldl_cons] at hkv
    refine ih (insStep d q) ?_
      (fun r hr => hqs r (List.mem_cons_of_mem _ hr)) kv hkv
    intro kv' hkv'
    rcases dinsert_drop1 d (splitColon1 q).1 (splitColon1 q).2 kv' hkv' with
      h' | h'
    · exact hd kv' h'
    · obtain ⟨hq1, hq2⟩ := hqs q (List.mem_cons_self _ _)
      rw [h']
      show P (segCore ((splitColon1 q).1, (splitColon1 q).2))
      rw [show segCore ((splitColon1 q).1, (splitColon1 q).2) =
        (splitColon1 q).1 ++ ':' :: (splitColon1 q).2 from rfl,
        splitColon1_recon q hq1]
      exact hq2

theorem chain_key_decomp (name b : List Char)
    (m : List (List Char × List Char)) (k : List Char)
    (hp : parse_metric_modifiers name = some (b, m))
    (hm1 : 1 ≤ m.length) (hk : k ∈ chainKeys b m) :
    ∃ bparts cores, splitDU k = bparts ++ cores ∧ bparts ≠ [] ∧
      b = joinDU bparts ∧ hasColon (bparts.getLastD []) = false ∧
      (∀ q ∈ cores, hasColon q = true) := by
  obtain ⟨bparts, popped, hsplit, hbne, hb, hlast, hcol, hmrel⟩ :=
    parse_structure name b m hp
  have hpne : popped ≠ [] := by
    intro hpe
    rw [hpe] at hmrel
    simp at hmrel
    rw [hmrel] at hm1
    simp at hm1
  have hbclean : ∀ p ∈ bparts, hasDU p = false ∧ endsU p = false := by
    intro p hp'
    constructor
    · exact splitDU_no_sep name p
        (by rw [hsplit]; exact List.mem_append_left _ hp')
    · apply splitDU_dropLast_endsU name
      rw [hsplit, List.dropLast_append_of_ne_nil _ hpne]
      exact List.mem_append_left _ hp'
  obtain ⟨pinit, plast, hpsplit⟩ : ∃ pinit plast, popped = pinit ++ [plast] := by
    rcases List.eq_nil_or_concat popped with h' | ⟨pinit, plast, h'⟩
    · exact absurd h' hpne
    · exact ⟨pinit, plast, by rw [h', List.concat_eq_append]⟩
  have hrevshape : popped.reverse = plast :: pinit.reverse := by
    rw [hpsplit, List.reverse_append]
    rfl
  have hdrop_prov : ∀ kv ∈ m.dropLast, segCore kv ∈ pinit := by
    intro kv hkv
    have hmem : kv ∈ ((popped.reverse).foldl insStep []).drop 1 := by
      rw [hmrel, reverse_dropLast] at hkv
      exact List.mem_reverse.mp hkv
    rw [hrevshape, List.foldl_cons] at hmem
    refine foldl_insStep_mem_drop1 pinit.reverse (· ∈ pinit)
      (insStep [] plast) ?_ ?_ kv hmem
    · intro kv' hkv'
      simp [insStep, dinsert] at hkv'
    · intro q hq
      have hqp : q ∈ pinit := List.mem_reverse.mp hq
      exact ⟨hcol q (by rw [hpsplit]; exact List.mem_append_left _ hqp), hqp⟩
  obtain ⟨j, hj, hkname⟩ := chainKeys_mem_mkName m b k hk
  have htake_clean : ∀ kv ∈ m.take j,
      hasDU (segCore kv) = false ∧ endsU (segCore kv) = false := by
    intro kv hkv
    have hdl : kv ∈ m.dropLast := mem_take_dropLast m j kv hj hkv
    have hpm : segCore kv ∈ pinit := hdrop_prov kv hdl
    have hparts : segCore kv ∈ (splitDU name).dropLast := by
      rw [hsplit, hpsplit, ← List.append_assoc, List.dropLast_concat]
      exact List.mem_append_right _ hpm
    exact ⟨splitDU_no_sep name _ (List.dropLast_subset _ hparts),
      splitDU_dropLast_endsU name _ hparts⟩
  refine ⟨bparts, (m.take j).map segCore, ?_, hbne, hb, hlast, ?_⟩
  · rw [hkname, hb, mkName_split_parts (m.take j) bparts hbne hbclean htake_clean]
  · intro q hq
    obtain ⟨kv, _, rfl⟩ := List.mem_map.mp hq
    exact hasColon_segCore kv

theorem write_base_unique (n₁ n₂ : List Char) (b₁ b₂ : List Char)
    (m₁ m₂ : List (List Char × List Char)) (k : List Char)
    (hp₁ : parse_metric_modifiers n₁ = some (b₁, m₁))
    (hp₂ : parse_metric_modifiers n₂ = some (b₂, m₂))
    (hm₁ : 1 ≤ m₁.length) (hm₂ : 1 ≤ m₂.length)
    (hk₁ : k ∈ chainKeys b₁ m₁) (hk₂ : k ∈ chainKeys b₂ m₂) : b₁ = b₂ := by
  obtain ⟨L₁, s₁, he₁, hn₁, hb₁, hc₁, hs₁⟩ :=
    chain_key_decomp n₁ b₁ m₁ k hp₁ hm₁ hk₁
  obtain ⟨L₂, s₂, he₂, hn₂, hb₂, hc₂, hs₂⟩ :=
    chain_key_decomp n₂ b₂ m₂ k hp₂ hm₂ hk₂
  have heq : L₁ ++ s₁ = L₂ ++ s₂ := by rw [← he₁, ← he₂]
  have : L₁ = L₂ := boundary_unique L₁ L₂ s₁ s₂ heq hn₁ hn₂ hc₁ hc₂ hs₁ hs₂
  rw [hb₁, hb₂, this]

theorem entryWrites_spec (rules : Registry) (name w : List Char)
    (hw : w ∈ entryWrites rules name) :
    ∃ base mods e a, parse_metric_modifiers name = some (base, mods) ∧
      rules base = some e ∧ RegistryEntry.agg e = some a ∧
      ¬ mods.length < 1 ∧
      ((mods.map Prod.fst).any fun key => e.dontAggregate.contains key)
        = false ∧
      w ∈ chainKeys base mods := by
  unfold entryWrites at hw
  rcases hp : parse_metric_modifiers name with _ | ⟨base, mods⟩
  · rw [hp] at hw; simp at hw
  · rw [hp] at hw
    dsimp only at hw
    by_cases h1 : mods.length < 1
    · rw [if_pos h1] at hw; simp at hw
    · rw [if_neg h1] at hw
      rcases hr : rules base with _ | e
      · rw [hr] at hw; simp at hw
      · rw [hr] at hw; dsimp only at hw
        rcases ha : RegistryEntry.agg e with _ | a
        · rw [ha] at hw; simp at hw
        · rw [ha] at hw; dsimp only at hw
          by_cases h2 : ((mods.map Prod.fst).any
              fun key => e.dontAggregate.contains key) = true
          · rw [if_pos h2] at hw; simp at hw
          · rw [if_neg h2] at hw
            exact ⟨base, mods, e, a, rfl, hr, ha, h1,
              Bool.not_eq_true _ ▸ h2, hw⟩

theorem entryEffect_writes_eval (rules : Registry) (nv : List Char × Int)
    (k : List Char) (a : Option Int) (base : List Char)
    (mods : List (List Char × List Char)) (e : RegistryEntry)
    (ag : Aggregator)
    (hp : parse_metric_modifiers nv.1 = some (base, mods))
    (hr : rules base = some e) (ha : RegistryEntry.agg e = some ag)
    (h1 : ¬ mods.length < 1)
    (h2 : ((mods.map Prod.fst).any fun key => e.dontAggregate.contains key)
      = false)
    (hk : k ∈ chainKeys base mods) :
    entryEffect rules nv k a = some (ag.fn [pyOrInt a ag.start, nv.2]) := by
  unfold entryEffect
  rw [hp]
  dsimp only
  rw [if_neg h1, hr]
  dsimp only
  rw [ha]
  dsimp only
  rw [if_neg (by rw [h2]; exact Bool.false_ne_true), if_pos hk]

theorem alistGet_eq_some_mem {β : Type} (d : List (List Char × β))
    (k : List Char) (v : β) (h : alistGet d k = some v) : (k, v) ∈ d := by
  induction d with
  | nil => exact Option.noConfusion h
  | cons kv d' ih =>
    obtain ⟨k₀, v₀⟩ := kv
    by_cases hk : k₀ = k
    · rw [alistGet, if_pos hk] at h
      injection h with h'
      subst hk; subst h'
      exact List.mem_cons_self _ _
    · rw [alistGet, if_neg hk] at h
      exact List.mem_cons_of_mem _ (ih h)

theorem alistGet_of_mem_nodup {β : Type} (d : List (List Char × β))
    (k : List Char) (v : β) (hnd : keysNodup d) (h : (k, v) ∈ d) :
    alistGet d k = some v := by
  induction d with
  | nil => simp at h
  | cons kv d' ih =>
    obtain ⟨k₀, v₀⟩ := kv
    unfold keysNodup at hnd
    rw [List.map_cons, List.nodup_cons] at hnd
    rcases List.mem_cons.mp h with h' | h'
    · injection h' with h1 h2
      rw [alistGet, if_pos h1.symm]
      rw [h2]
    · by_cases hk : k₀ = k
      · exfalso
        subst hk
        exact hnd.1 (List.mem_map.mpr ⟨(k₀, v), h', rfl⟩)
      · rw [alistGet, if_neg hk]
        exact ih hnd.2 h'

theorem alistGet_none_iff {β : Type} (d : List (List Char × β))
    (k : List Char) :
    alistGet d k = none ↔ ∀ kv ∈ d, kv.1 ≠ k := by
  constructor
  · intro h kv hkv heq
    induction d with
    | nil => simp at hkv
    | cons kv₀ d' ih =>
      obtain ⟨k₀, v₀⟩ := kv₀
      by_cases hk : k₀ = k
      · rw [alistGet, if_pos hk] at h
        exact Option.noConfusion h
      · rw [alistGet, if_neg hk] at h
        rcases List.mem_cons.mp hkv with h' | h'
        · exact hk (by rw [← heq, h'])
        · exact ih h h'
  · exact alistGet_none d k

theorem keysNodup_perm {β : Type} (d₁ d₂ : List (List Char × β))
    (h : d₁.Perm d₂) (hnd : keysNodup d₁) : keysNodup d₂ :=
  ((h.map Prod.fst).nodup_iff).mp hnd

theorem alistGet_perm (d₁ d₂ : List (List Char × Int)) (hperm : d₁.Perm d₂)
    (hnd : keysNodup d₁) (k : List Char) :
    alistGet d₁ k = alistGet d₂ k := by
  rcases h1 : alistGet d₁ k with _ | v
  · rcases h2 : alistGet d₂ k with _ | v'
    · rfl
    · exfalso
      have hmem := alistGet_eq_some_mem d₂ k v' h2
      have := (alistGet_none_iff d₁ k).mp h1 (k, v')
        (hperm.mem_iff.mpr hmem)
      exact this rfl
  · have hmem := alistGet_eq_some_mem d₁ k v h1
    rw [alistGet_of_mem_nodup d₂ k v (keysNodup_perm d₁ d₂ hperm hnd)
      (hperm.mem_iff.mp hmem)]

theorem aggLoop_eq_none_iff (rules : Registry)
    (input : List (List Char × Int)) :
    ∀ agg, aggLoop rules agg input = none ↔
      ∃ nv ∈ input, parse_metric_modifiers nv.1 = none := by
  induction input with
  | nil =>
    intro agg
    constructor
    · intro h; exact Option.noConfusion h
    · intro ⟨nv, hnv, _⟩; simp at hnv
  | cons nv rest ih =>
    intro agg
    unfold aggLoop
    rcases hp : parse_metric_modifiers nv.1 with _ | pm
    · constructor
      · intro _; exact ⟨nv, List.mem_cons_self _ _, hp⟩
      · intro _; rfl
    · rw [ih]
      constructor
      · intro ⟨e, he, hpe⟩
        exact ⟨e, List.mem_cons_of_mem _ he, hpe⟩
      · intro ⟨e, he, hpe⟩
        rcases List.mem_cons.mp he with h' | h'
        · exfalso; rw [h', hp] at hpe; exact Option.noConfusion hpe
        · exact ⟨e, h', hpe⟩

theorem entryEffect_comm (rules : Registry) (k : List Char)
    (hops : ∀ b e a, rules b = some e → RegistryEntry.agg e = some a →
      (∀ x y : Int, a.fn [x, y] = a.fn [y, x]) ∧
      (∀ x y z : Int, a.fn [a.fn [x, y], z] = a.fn [x, a.fn [y, z]]) ∧
      (∀ x y : Int, a.fn [x, y] ≠ 0))
    (x y : List Char × Int) (z : Option Int) :
    entryEffect rules y k (entryEffect rules x k z) =
      entryEffect rules x k (entryEffect rules y k z) := by
  by_cases hx : k ∈ entryWrites rules x.1
  · by_cases hy : k ∈ entryWrites rules y.1
    · obtain ⟨bx, mx, ex, ax, hpx, hrx, hax, h1x, h2x, hkx⟩ :=
        entryWrites_spec rules x.1 k hx
      obtain ⟨by', my, ey, ay, hpy, hry, hay, h1y, h2y, hky⟩ :=
        entryWrites_spec rules y.1 k hy
      have hbase : bx = by' :=
        write_base_unique x.1 y.1 bx by' mx my k hpx hpy
          (by omega) (by omega) hkx hky
      subst hbase
      have he : ex = ey := by
        rw [hrx] at hry
        injection hry
      subst he
      have ha : ax = ay := by
        rw [hax] at hay
        injection hay
      subst ha
      obtain ⟨hcomm, hassoc, hnz⟩ := hops bx ex ax hrx hax
      have hx1 : entryEffect rules x k z =
          some (ax.fn [pyOrInt z ax.start, x.2]) :=
        entryEffect_writes_eval rules x k z bx mx ex ax hpx hrx hax h1x h2x hkx
      have hy1 : entryEffect rules y k z =
          some (ax.fn [pyOrInt z ax.start, y.2]) :=
        entryEffect_writes_eval rules y k z bx my ex ax hpy hrx hax h1y h2y hky
      rw [hx1, hy1]
      rw [entryEffect_writes_eval rules y k
        (some (ax.fn [pyOrInt z ax.start, x.2])) bx my ex ax hpy hrx hax
        h1y h2y hky]
      rw [entryEffect_writes_eval rules x k
        (some (ax.fn [pyOrInt z ax.start, y.2])) bx mx ex ax hpx hrx hax
        h1x h2x hkx]
      have hred : ∀ w : Int,
          pyOrInt (some (ax.fn [pyOrInt z ax.start, w])) ax.start =
            ax.fn [pyOrInt z ax.start, w] := by
        intro w
        simp only [pyOrInt]
        rw [if_neg (hnz _ _)]
      rw [hred, hred]
      congr 1
      rw [hassoc, hassoc, hcomm x.2 y.2]
    · rw [entryEffect_not_writes rules y k (entryEffect rules x k z) hy,
        entryEffect_not_writes rules y k z hy]
  · rw [entryEffect_not_writes rules x k z hx,
      entryEffect_not_writes rules x k (entryEffect rules y k z) hx]

/-- C3 amended: for inputs with unique keys and rules whose reducers are
associative, commutative and never produce the falsy value 0, the value that
`aggregate_metrics` exposes under any given name is identical for every
permutation of the input mapping (crashes also coincide).  Without the
never-zero condition the `or start` fallback re-seeds falsy intermediate
accumulators and order independence fails. -/
theorem C3_amended (rules : Registry) (in₁ in₂ : List (List Char × Int))
    (hperm : in₁.Perm in₂) (hnodup : keysNodup in₁)
    (hops : ∀ b e a, rules b = some e → RegistryEntry.agg e = some a →
      (∀ x y : Int, a.fn [x, y] = a.fn [y, x]) ∧
      (∀ x y z : Int, a.fn [a.fn [x, y], z] = a.fn [x, a.fn [y, z]]) ∧
      (∀ x y : Int, a.fn [x, y] ≠ 0)) :
    ∀ k, (aggregate_metrics in₁ rules).map (fun d => alistGet d k) =
      (aggregate_metrics in₂ rules).map (fun d => alistGet d k) := by
  intro k
  by_cases hbad : ∃ nv ∈ in₁, parse_metric_modifiers nv.1 = none
  · have hb₂ : ∃ nv ∈ in₂, parse_metric_modifiers nv.1 = none := by
      obtain ⟨nv, hnv, hp⟩ := hbad
      exact ⟨nv, hperm.mem_iff.mp hnv, hp⟩
    have h₁ : aggLoop rules [] in₁ = none :=
      (aggLoop_eq_none_iff rules in₁ []).mpr hbad
    have h₂ : aggLoop rules [] in₂ = none :=
      (aggLoop_eq_none_iff rules in₂ []).mpr hb₂
    unfold aggregate_metrics
    rw [h₁, h₂]
    rfl
  · have hb₂ : ¬ ∃ nv ∈ in₂, parse_metric_modifiers nv.1 = none := by
      intro ⟨nv, hnv, hp⟩
      exact hbad ⟨nv, hperm.mem_iff.mpr hnv, hp⟩
    rcases hA₁ : aggLoop rules [] in₁ with _ | A₁
    · exact absurd ((aggLoop_eq_none_iff rules in₁ []).mp hA₁) hbad
    rcases hA₂ : aggLoop rules [] in₂ with _ | A₂
    · exact absurd ((aggLoop_eq_none_iff rules in₂ []).mp hA₂) hb₂
    unfold aggregate_metrics
    rw [hA₁, hA₂]
    show some (alistGet (pyUpdate in₁ A₁) k) =
      some (alistGet (pyUpdate in₂ A₂) k)
    congr 1
    rw [alistGet_pyUpdate A₁ in₁ k
      (keysNodup_aggLoop rules in₁ [] A₁ hA₁ (by simp [keysNodup]))]
    rw [alistGet_pyUpdate A₂ in₂ k
      (keysNodup_aggLoop rules in₂ [] A₂ hA₂ (by simp [keysNodup]))]
    have hAk : alistGet A₁ k = alistGet A₂ k := by
      rw [aggLoop_get rules in₁ [] A₁ k hA₁,
        aggLoop_get rules in₂ [] A₂ k hA₂]
      exact hperm.foldl_eq'
        (fun x _ y _ z => entryEffect_comm rules k hops x y z)
        (alistGet [] k)
    have hin : alistGet in₁ k = alistGet in₂ k :=
      alistGet_perm in₁ in₂ hperm hnodup k
    rw [hAk, hin]

/-- C3 amended, witnessed on a two-entry snapshot under the always-positive
associative commutative rule: both orders expose the same aggregate under
`"m"`. -/
theorem C3_amended_witness :
    (aggregate_metrics [(str "m__k:a", 5), (str "m__k:b", -7)] absRules).map
        (fun d => alistGet d (str "m")) =
      (aggregate_metrics [(str "m__k:b", -7), (str "m__k:a", 5)]
          absRules).map (fun d => alistGet d (str "m")) := by
  apply C3_amended absRules _ _ (by decide) (by unfold keysNodup; decide) ?_
    (str "m")
  intro b e a hb ha
  by_cases hbm : b = str "m"
  · rw [hbm] at hb
    rw [show absRules (str "m") = some (.tup ⟨1, fun l =>
        ((l.headD 0).natAbs : Int) + (((l.drop 1).headD 0).natAbs : Int) + 1⟩)
      from rfl] at hb
    injection hb with hb'
    subst hb'
    have ha' : a = ⟨1, fun l =>
        ((l.headD 0).natAbs : Int) + (((l.drop 1).headD 0).natAbs : Int) + 1⟩ := by
      have : RegistryEntry.agg (.tup ⟨1, fun l =>
          ((l.headD 0).natAbs : Int) + (((l.drop 1).headD 0).natAbs : Int) + 1⟩) =
          some ⟨1, fun l =>
          ((l.headD 0).natAbs : Int) + (((l.drop 1).headD 0).natAbs : Int) + 1⟩ :=
        rfl
      rw [this] at ha
      injection ha with ha'
      exact ha'.symm
    subst ha'
    refine ⟨?_, ?_, ?_⟩
    · intro x y
      simp
      omega
    · intro x y z
      simp only [List.drop_succ_cons, List.drop_zero, List.headD_cons]
      have h1 : (0 : Int) ≤ (x.natAbs : Int) + (y.natAbs : Int) + 1 := by
        omega
      have h2 : (0 : Int) ≤ (y.natAbs : Int) + (z.natAbs : Int) + 1 := by
        omega
      rw [Int.natAbs_of_nonneg h1, Int.natAbs_of_nonneg h2]
      omega
    · intro x y
      simp only [List.drop_succ_cons, List.drop_zero, List.headD_cons]
      omega
  · rw [show absRules b = none by simp [absRules, hbm]] at hb
    exact Option.noConfusion hb
